import Mathlib

/-!
# IPPL halo exchange, domain decomposition and particle update

A shallow embedding of the parts of the repository that its specification
talks about, followed by the theorems that settle the specification's claims.

* `HaloCells` : the matching tables, the unpack operators and the pack and
  unpack operations of `src/Field/HaloCells.h`.
* `ViewTypes` : the range policies of `src/Types/ViewTypes.h`.
* `TestHalo` : the index conversion of `test/field/TestHalo.cpp`.
* `FieldLayout` : the Subdomain Table, its decomposition policy and the
  neighbor topology.
* `ParticleSpatialLayout` : the particle update of the benchmark
  `test/particle/benchmarkParticleUpdate.cpp`.
* `Landau`    : the driver `alpine/LandauDamping_test_sampling.cpp`.
-/

namespace HaloCells

/-- The table `std::array<int, 6> matchface_m = { 1, 0, 3, 2, 5, 4 }`. -/
def matchface_m : List Int := [1, 0, 3, 2, 5, 4]

/-- The table `std::array<int, 12> matchedge_m = { 3, 2, 1, 0, 7, 6, 5, 4, 11, 10, 9, 8 }`. -/
def matchedge_m : List Int := [3, 2, 1, 0, 7, 6, 5, 4, 11, 10, 9, 8]

/-- The table `std::array<int, 8> matchvertex_m = { 7, 6, 5, 4, 3, 2, 1, 0 }`. -/
def matchvertex_m : List Int := [7, 6, 5, 4, 3, 2, 1, 0]

/-- Subscripting `table[i]` of a `std::array<int, N>` with an `int` index;
`none` stands for an access outside the array. -/
def entry (table : List Int) (i : Int) : Option Int :=
  if i < 0 then none else table[i.toNat]?

/-- Bit `d` of a slot index: `true` selects the high side along axis `d`. -/
def sideBit (v : Int) (d : Nat) : Bool :=
  (v.toNat / 2 ^ d) % 2 == 1

/-- Offset vector of a vertex slot under the encoding in which bit `d` of the
vertex index selects the low (`-1`) or the high (`+1`) side along axis `d`. -/
def vertexOffset (v : Int) : List Int :=
  (List.range 3).map (fun d => if sideBit v d then 1 else -1)

end HaloCells

namespace FieldLayout

/-- Modelled from the spec: the per-dimension decomposition flag `e_dim_tag`
that the tests pass to `FieldLayout` (`ippl::PARALLEL`, `ippl::SERIAL`); its
declaration is not among the sources. A parallel dimension takes part in the
decomposition, a serial one is kept whole on every process (section 4.1). -/
inductive e_dim_tag
  | SERIAL
  | PARALLEL
  deriving DecidableEq, Repr

/-- Modelled from the spec: the one-dimensional index range `ippl::Index`, an
ordered pair `(first, last)` of inclusive bounds (section 3, "Index range"). -/
abbrev Index := Int × Int

/-- Modelled from the spec: the multi-dimensional index range `ippl::NDIndex`,
one `(first, last)` pair per dimension (section 3, "Index range"). -/
abbrev NDIndex := List Index

/-- Modelled from the spec: number of indices of an inclusive range
`(first, last)`; a range with `last < first` holds none. -/
def Index.length (r : Index) : Nat := (r.2 - r.1 + 1).toNat

/-- Modelled from the spec: membership of an index in an inclusive range. -/
def Index.contains (r : Index) (x : Int) : Bool := decide (r.1 ≤ x) && decide (x ≤ r.2)

/-- Modelled from the spec: membership of a global index (one coordinate per
dimension) in a multi-dimensional inclusive box. -/
def NDIndex.contains : NDIndex → List Int → Bool
  | [], [] => true
  | r :: b, x :: p => r.contains x && NDIndex.contains b p
  | _, _ => false

/-- Two index ranges share no global index. -/
def NDIndex.disjoint (a b : NDIndex) : Prop :=
  ∀ p : List Int, ¬ (a.contains p = true ∧ b.contains p = true)

/-- Modelled from the spec: the product of the extents along the parallel
dimensions (section 4.1, edge case). -/
def parallelCells : NDIndex → List e_dim_tag → Nat
  | r :: b, t :: ts => (if t = e_dim_tag.PARALLEL then r.length else 1) * parallelCells b ts
  | _, _ => 1

/-- Modelled from the spec: scan of the dimensions from position `i` on for the
parallel dimension with the largest extent; returns its position and extent
(the lowest position wins a tie). -/
def largestFrom : Nat → NDIndex → List e_dim_tag → Option (Nat × Nat)
  | i, r :: b, t :: ts =>
    match largestFrom (i + 1) b ts with
    | none => if t = e_dim_tag.PARALLEL then some (i, r.length) else none
    | some (j, m) =>
      if t = e_dim_tag.PARALLEL ∧ m ≤ r.length then some (i, r.length) else some (j, m)
  | _, _, _ => none

/-- Modelled from the spec: the parallel dimension along which a range is
split, the one with the largest extent (section 4.1, policy). -/
def largestParallelDim (box : NDIndex) (flags : List e_dim_tag) : Option Nat :=
  (largestFrom 0 box flags).map Prod.fst

/-- Modelled from the spec: cut of a one-dimensional range into its lowest `k`
indices and the rest. -/
def Index.split (r : Index) (k : Nat) : Index × Index :=
  ((r.1, r.1 + (k : Int) - 1), (r.1 + (k : Int), r.2))

/-- Modelled from the spec: split of a box along dimension `d` into two parts,
the lower one `k` indices thick; the other dimensions are kept whole. -/
def NDIndex.split (box : NDIndex) (d : Nat) (k : Nat) : NDIndex × NDIndex :=
  match box[d]? with
  | none => (box, box)
  | some r => (box.set d (r.split k).1, box.set d (r.split k).2)

/-- Modelled from the spec: the recursive bisection of section 4.1, whose code
(`FieldLayout` and its partitioner) is not among the sources. A range that has
to host `P` processes fails if `P` exceeds the product of its extents along the
parallel dimensions; it is a leaf when `P` is one; otherwise it is split along
the parallel dimension with the largest extent into two parts whose sizes are
in the proportion of the `P / 2` and `P - P / 2` processes assigned to them, and
both parts are decomposed in the same way. The lower part receives the lower
ranks. `fuel` bounds the recursion depth. -/
def bisect (flags : List e_dim_tag) : Nat → NDIndex → Nat → Option (List NDIndex)
  | 0, _, _ => none
  | fuel + 1, box, P =>
    if parallelCells box flags < P then none
    else if P ≤ 1 then some [box]
    else
      match largestParallelDim box flags with
      | none => none
      | some d =>
        let halves := box.split d ((box.getD d (0, 0)).length * (P / 2) / P)
        match bisect flags fuel halves.1 (P / 2), bisect flags fuel halves.2 (P - P / 2) with
        | some L, some R => some (L ++ R)
        | _, _ => none

/-- Modelled from the spec: construction of the Subdomain Table by
`FieldLayout(domain, flags, ...)` for `P` processes (section 4.1); entry `r` of
the result is the index range of rank `r`, `none` is the fatal configuration
error. No bisection of `P` processes is deeper than `P` levels. -/
def decompose (domain : NDIndex) (flags : List e_dim_tag) (P : Nat) : Option (List NDIndex) :=
  bisect flags P domain P

end FieldLayout

namespace ParticleSpatialLayout
open FieldLayout

/-- Modelled from the spec: the uniform Cartesian mesh `Mesh_t mesh(domain, hr,
origin)` of the drivers, reduced to its spacing and origin per dimension; real
numbers are taken exact. -/
structure Mesh_t where
  hr : List ℚ
  origin : List ℚ

/-- Modelled from the spec: the particle layout `PLayout_t PL(FL, mesh)`, that
is the global index range and the Subdomain Table of the field layout together
with the mesh. -/
structure PLayout_t where
  domain : NDIndex
  table : List NDIndex
  mesh : Mesh_t

/-- Modelled from the spec: a particle record, a position `R` plus a fixed set
of attribute values (section 3, "Particle record"). -/
structure Particle where
  R : List ℚ
  attributes : List ℚ
  deriving DecidableEq, Repr

/-- Modelled from the spec: periodic wrap of one coordinate into the physical
extent of the global range `g`, which starts at `origin + first * h` and is
`length * h` long. -/
def wrapCoord (g : Index) (h o x : ℚ) : ℚ :=
  x - (g.length : ℚ) * h * (⌊(x - (o + (g.1 : ℚ) * h)) / ((g.length : ℚ) * h)⌋ : ℚ)

/-- Modelled from the spec: periodic wrap of a position into the physical
domain, dimension by dimension (all boundaries periodic, as set by
`setBCAllPeriodic` in the benchmark). -/
def wrap : NDIndex → List ℚ → List ℚ → List ℚ → List ℚ
  | g :: gs, h :: hs, o :: os, x :: xs => wrapCoord g h o x :: wrap gs hs os xs
  | _, _, _, _ => []

/-- Modelled from the spec: whether a position lies in the physical region of
an index range; per dimension the region is the half-open interval from
`origin + first * h` (included) to `origin + (last + 1) * h` (excluded), the
low-index-inclusive convention of section 4.4. -/
def inRegion : NDIndex → List ℚ → List ℚ → List ℚ → Bool
  | [], [], [], [] => true
  | r :: rs, h :: hs, o :: os, x :: xs =>
    decide (o + (r.1 : ℚ) * h ≤ x) && decide (x < o + ((r.2 : ℚ) + 1) * h) && inRegion rs hs os xs
  | _, _, _, _ => false

/-- Modelled from the spec: search of the Subdomain Table, from rank `i` on,
for the first subdomain whose physical region contains the position `x`. -/
def locateFrom (mesh : Mesh_t) (x : List ℚ) : Nat → List NDIndex → Option Nat
  | _, [] => none
  | i, b :: bs => if inRegion b mesh.hr mesh.origin x then some i else locateFrom mesh x (i + 1) bs

/-- Modelled from the spec: step (1) of the update protocol of section 4.4,
whose code (`ParticleSpatialLayout::update`) is not among the sources. A local
particle of `rank` is classified by the subdomain whose physical region
contains its wrapped position; a particle still inside the local region keeps
its rank. -/
def classify (pl : PLayout_t) (rank : Nat) (p : Particle) : Option Nat :=
  let x := wrap pl.domain pl.mesh.hr pl.mesh.origin p.R
  match pl.table[rank]? with
  | some own =>
    if inRegion own pl.mesh.hr pl.mesh.origin x then some rank
    else locateFrom pl.mesh x 0 pl.table
  | none => locateFrom pl.mesh x 0 pl.table

/-- Modelled from the spec: a particle departs when it is classified to a rank
other than the one that holds it. -/
def departs (pl : PLayout_t) (rank : Nat) (p : Particle) : Bool :=
  match classify pl rank p with
  | some dest => dest != rank
  | none => false

/-- Modelled from the spec: step (2), the departing particles of `rank` grouped
by destination rank `dest`. -/
def sendBuffer (pl : PLayout_t) (rank : Nat) (locals : List Particle) (dest : Nat) :
    List Particle :=
  locals.filter (fun p => classify pl rank p == some dest)

/-- Modelled from the spec: step (2), the count of departing particles that
`rank` announces to `dest`. -/
def sendCount (pl : PLayout_t) (rank : Nat) (locals : List Particle) (dest : Nat) : Nat :=
  (sendBuffer pl rank locals dest).length

/-- Modelled from the spec: step (3), the records `rank` receives from the rank
`sender`: a receive buffer sized by the announced count, filled with the packed
records. -/
def received (pl : PLayout_t) (containers : List (List Particle)) (rank sender : Nat) :
    List Particle :=
  (sendBuffer pl sender (containers.getD sender []) rank).take
    (sendCount pl sender (containers.getD sender []) rank)

/-- Modelled from the spec: step (4) on one rank: the departed records are
removed and the records received from every other rank are appended. -/
def updateRank (pl : PLayout_t) (containers : List (List Particle)) (rank : Nat) :
    List Particle :=
  (containers.getD rank []).filter (fun p => !departs pl rank p) ++
    ((List.range containers.length).filter (fun s => s != rank)).flatMap
      (fun s => received pl containers rank s)

/-- Modelled from the spec: the particle update `layout.update(*this)` on all
ranks at once; `containers` holds the local particles of every rank, entry `r`
for rank `r`. -/
def update (pl : PLayout_t) (containers : List (List Particle)) : List (List Particle) :=
  (List.range containers.length).map (updateRank pl containers)

/-- Total particle count: `getLocalNum()` summed over all ranks, as a natural
number. -/
def totalLocalNum (containers : List (List Particle)) : Nat :=
  (containers.map List.length).sum

/-- The value `Total_particles` of `gatherStatistics` in the benchmark:
`unsigned int local_particles = this->getLocalNum()` summed over all ranks by
`MPI_Allreduce` with `MPI_UNSIGNED` and `MPI_SUM`, that is in 32-bit unsigned
arithmetic. -/
def Total_particles (containers : List (List Particle)) : Nat :=
  (containers.map (fun locals => locals.length % 2 ^ 32)).sum % 2 ^ 32

/-- Index of the mesh cell that holds a position, per dimension
`floor ((x - origin) / h)`. -/
def cellIndex : List ℚ → List ℚ → List ℚ → List Int
  | h :: hs, o :: os, x :: xs => ⌊(x - o) / h⌋ :: cellIndex hs os xs
  | _, _, _ => []

/-- A one-dimensional layout as in the benchmark (`rmin = 0`, `rmax = 1`,
`hr = 1 / nr`) with four cells on two ranks. -/
def benchLayout : PLayout_t := ⟨[(0, 3)], [[(0, 1)], [(2, 3)]], ⟨[1 / 4], [0]⟩⟩

/-- Two particles on each of the two ranks, after a drift: on both ranks the
first particle is now outside the region of its rank. -/
def benchParticles : List (List Particle) :=
  [[⟨[5 / 8], [1]⟩, ⟨[1 / 8], [2]⟩], [⟨[9 / 8], [4]⟩, ⟨[7 / 8], [5]⟩]]

end ParticleSpatialLayout

namespace Landau

/-- Calls the driver `main` issues on the particle bunch `P` that matter for
load balancing; `repartition` carries the flag `isFirstRepartition`. -/
inductive Call
  | assignInitialRho
  | fence
  | initializeORB
  | repartition (isFirstRepartition : Bool)
  deriving DecidableEq, Repr

/-- The block of `main` guarded by
`if ((P->loadbalancethreshold_m != 1.0) && (ippl::Comm->size() > 1))`:
the calls it issues, in program order. The threshold is the value parsed by
`std::atof`, taken as an exact number. -/
def firstRepartition (loadbalancethreshold_m : ℚ) (commSize : Int) : List Call :=
  if loadbalancethreshold_m ≠ 1 ∧ commSize > 1 then
    [Call.assignInitialRho, Call.fence, Call.initializeORB, Call.repartition true]
  else
    []

/-- Modelled from the spec: the relative imbalance `(max - average) / average`
of a per-rank work metric (one entry per rank) of section 4.5, in exact
arithmetic. -/
def imbalance (metric : List Nat) : ℚ :=
  let mx : ℚ := ((metric.foldl max 0 : Nat) : ℚ)
  let avg : ℚ := ((metric.sum : Nat) : ℚ) / ((metric.length : Nat) : ℚ)
  (mx - avg) / avg

/-- Modelled from the spec: `ChargedParticles::balance`, which the driver calls
as `P->balance(totalP, it + 1)` and which is defined in `ChargedParticles.hpp`,
a file that is not among the sources. Section 4.5: after a configurable cadence
the per-process work metric is reduced to its global maximum and average, and a
repartition is triggered if `(max - average) / average` exceeds the configured
threshold; threshold 1.0 or single-process execution permanently skips
rebalancing. `cadence nstep` tells whether the cadence is reached at step
`nstep`; `metric` lists the work metric of every rank (the outcome of the
reduction). The argument `totalP` of the call plays no part in this rule. -/
def balance (loadbalancethreshold_m : ℚ) (cadence : Nat → Bool) (metric : List Nat)
    (nstep : Nat) : Bool :=
  if loadbalancethreshold_m = 1 ∨ metric.length ≤ 1 then false
  else if cadence nstep then decide (imbalance metric > loadbalancethreshold_m)
  else false

/-- The domain-decomposition step of the time loop of `main`:
`if (P->balance(totalP, it + 1)) { P->repartition(FL, mesh, isFirstRepartition); }`
with `isFirstRepartition == false` inside the loop. -/
def loopRepartition (loadbalancethreshold_m : ℚ) (cadence : Nat → Bool) (metric : List Nat)
    (it : Nat) : List Call :=
  if balance loadbalancethreshold_m cadence metric (it + 1) then [Call.repartition false]
  else []

end Landau

namespace HaloCells

/-- Modelled from the spec: the offset vectors with components in `{-1, 0, 1}`
of a 3-dimensional box (section 3, "Neighbor direction"), the zero vector
included. -/
def offsets3 : List (List Int) :=
  ([-1, 0, 1] : List Int).flatMap fun a =>
    ([-1, 0, 1] : List Int).flatMap fun b =>
      ([-1, 0, 1] : List Int).map fun c => [a, b, c]

/-- Modelled from the spec: the count of non-zero components of an offset
vector, which classifies a direction as face (1), edge (2) or vertex (3). -/
def nonZeroCount (v : List Int) : Nat :=
  (v.filter (fun c => c != 0)).length

/-- Modelled from the spec: the neighbor directions of a category, that is the
offset vectors with exactly `k` non-zero components. -/
def directions (k : Nat) : List (List Int) :=
  offsets3.filter (fun v => nonZeroCount v == k)

end HaloCells

namespace HaloCells

/-- The unpack operator `assign` of `HaloCells.h`, used in case of
`INTERNAL_TO_HALO`: `operator()(T& lhs, const T& rhs)` executes `lhs = rhs`.
The result is the value of `lhs` after the call. -/
def assign {T : Type} (_lhs rhs : T) : T := rhs

/-- The unpack operator `plus_assign` of `HaloCells.h`, used in case of
`HALO_TO_INTERNAL`: `operator()(T& lhs, const T& rhs)` executes `lhs += rhs`.
The result is the value of `lhs` after the call. -/
def plus_assign {T : Type} [Add T] (lhs rhs : T) : T := lhs + rhs

/-- Modelled from the spec: a field view (section 3, "Field view"), a dense
array with one extent per dimension; `data` gives the value stored at an index
tuple. The view type itself (a Kokkos view) is declared outside the sources. -/
structure View (T : Type) where
  extent : List Nat
  data : List Nat → T

/-- Modelled from the spec: the bounds `bound_type` of an index sub-range in
local index coordinates, with the members `lo` and `hi` that `TestHalo.cpp`
prints; per dimension the range holds the indices from `lo` up to, but not
including, `hi`. -/
structure bound_type where
  lo : List Nat
  hi : List Nat
  deriving DecidableEq, Repr

/-- The struct `FieldBufferData` of `HaloCells.h`: the one-dimensional view
`buffer` that holds the data to send or the data received. -/
structure FieldBufferData (T : Type) where
  buffer : List T
  deriving DecidableEq, Repr

/-- Modelled from the spec: the index tuples of a sub-range in the order of the
linearised copy (section 3, "Transfer buffer"): index 0 varies fastest, the
last index slowest. -/
def cells : List Nat → List Nat → List (List Nat)
  | [], [] => [[]]
  | l :: ls, h :: hs =>
    (cells ls hs).flatMap (fun tl => (List.range' l (h - l)).map (fun i => i :: tl))
  | _, _ => []

/-- Modelled from the spec: whether a sub-range lies inside a view with the
given extents (one `lo` and one `hi` per dimension, `hi` not beyond the
extent). -/
def inside : List Nat → List Nat → List Nat → Bool
  | [], [], [] => true
  | _ :: ls, h :: hs, e :: es => decide (h ≤ e) && inside ls hs es
  | _, _, _ => false

/-- Modelled from the spec: `HaloCells::pack(range, view, fd, nsends)`, declared
in `HaloCells.h` ("pack the field data to be sent into a contiguous array")
with its body in `HaloCells.hpp`, which is not among the sources. The cells of
`range` are copied into the front of `fd.buffer` in linear order and `nsends`
is set to their number; the result is the buffer and `nsends` after the call,
or `none` if the range is not inside the view. -/
def pack {T : Type} (range : bound_type) (view : View T) (fd : FieldBufferData T) :
    Option (FieldBufferData T × Nat) :=
  if inside range.lo range.hi view.extent then
    let packed := (cells range.lo range.hi).map view.data
    some (⟨packed ++ fd.buffer.drop packed.length⟩, packed.length)
  else
    none

/-- Modelled from the spec: the loop of `unpack` over the cells of the range:
the cell with linear position `l` is combined with entry `l` of the buffer by
the operator `Op`; `none` stands for a read beyond the end of the buffer. -/
def unpackLoop {T : Type} (Op : T → T → T) (buffer : List T) :
    List (List Nat) → Nat → (List Nat → T) → Option (List Nat → T)
  | [], _, data => some data
  | c :: cs, l, data =>
    match buffer[l]? with
    | none => none
    | some b => unpackLoop Op buffer cs (l + 1) (Function.update data c (Op (data c) b))

/-- Modelled from the spec: `HaloCells::unpack<Op>(range, view, fd)`, declared
in `HaloCells.h` ("unpack the received field data and assign it") with its body
in `HaloCells.hpp`, which is not among the sources. Every cell of `range` is
combined by `Op` with the buffer entry at its linear position; the result is
the view after the call, or `none` if the range is not inside the view or the
buffer is too short. -/
def unpack {T : Type} (Op : T → T → T) (range : bound_type) (view : View T)
    (fd : FieldBufferData T) : Option (View T) :=
  if inside range.lo range.hi view.extent then
    (unpackLoop Op fd.buffer (cells range.lo range.hi) 0 view.data).map
      (fun data => ⟨view.extent, data⟩)
  else
    none

/-- Modelled from the spec: the number of cells of a sub-range, the product
over the dimensions of `hi - lo`. -/
def cellCount : List Nat → List Nat → Nat
  | l :: ls, h :: hs => (h - l) * cellCount ls hs
  | _, _ => 1

/-- A view of extent 4 x 3 whose cell `(i, j)` holds `10 * i + j`. -/
def sampleView : View Int := ⟨[4, 3], fun idx => 10 * (idx.getD 0 0 : Int) + (idx.getD 1 0 : Int)⟩

/-- The sub-range `1 <= i < 3`, `0 <= j < 2` of the sample view. -/
def sampleRange : bound_type := ⟨[1, 0], [3, 2]⟩

end HaloCells

namespace ViewTypes
open HaloCells

/-- The exception type `IpplException(where, what)`, declared outside the
sources; only its two strings are kept. -/
structure IpplException where
  location : String
  what : String
  deriving DecidableEq, Repr

/-- Conversion of an integer value to the 64-bit unsigned type `size_t`. -/
def size_t (x : Int) : Int := x % 2 ^ 64

/-- The result type `RangePolicy<Dim, Tag>::policy_type`: a one-dimensional
`Kokkos::RangePolicy` built from a begin and an end index, or a
`Kokkos::MDRangePolicy` built from an array of begin indices and an array of
end indices. -/
inductive policy_type
  | RangePolicy (lower upper : Int)
  | MDRangePolicy (lower upper : List Int)
  deriving DecidableEq, Repr

/-- The call `view.extent(d)`. -/
def extent {T : Type} (view : View T) (d : Nat) : Nat := view.extent.getD d 1

/-- The call `view.size()`: the product of the extents. -/
def size {T : Type} (view : View T) : Nat := view.extent.prod

/-- The `if constexpr (Dim == 1) ... else ...` statement of
`detail::getRangePolicy<Dim>(view, shift)`: `some policy` when the statement
executes `return policy`, `none` when control falls through it. The
subtractions `view.size() - shift` and `view.extent(d) - shift` are carried out
in `size_t`. -/
def getRangePolicyBranches {T : Type} (Dim : Nat) (view : View T) (shift : Int) :
    Option policy_type :=
  if Dim = 1 then
    some (policy_type.RangePolicy shift (size_t (size_t (size view) - size_t shift)))
  else
    let lower := (List.range Dim).map (fun _ => shift)
    let upper := (List.range Dim).map (fun d => size_t (size_t (extent view d) - size_t shift))
    some (policy_type.MDRangePolicy lower upper)

/-- The function `detail::getRangePolicy<Dim>(view, shift)` of `ViewTypes.h`:
the `if constexpr` statement followed by
`throw IpplException("detail::getRangePolicy", "Unreachable state")`. -/
def getRangePolicy {T : Type} (Dim : Nat) (view : View T) (shift : Int) :
    Except IpplException policy_type :=
  match getRangePolicyBranches Dim view shift with
  | some policy => Except.ok policy
  | none => Except.error ⟨"detail::getRangePolicy", "Unreachable state"⟩

/-- The indices a Kokkos range from `lower` to `upper` visits along one
dimension: `lower`, `lower + 1`, ..., `upper - 1`. -/
def visited (lower upper : Int) : List Int :=
  (List.range (upper - lower).toNat).map (fun (k : Nat) => lower + (k : Int))

/-- The bounds of a policy along dimension `d`. -/
def policy_type.bounds : policy_type → Nat → Option (Int × Int)
  | policy_type.RangePolicy lower upper, d => if d = 0 then some (lower, upper) else none
  | policy_type.MDRangePolicy lower upper, d =>
    match lower[d]?, upper[d]? with
    | some l, some u => some (l, u)
    | _, _ => none

end ViewTypes

namespace Landau

/-- The particle container of the driver,
`P = std::make_unique<bunch_type>(PL, hr, rmin, rmax, decomp, Q, solver)`;
only the solver name it is created with is kept. -/
structure bunch_type where
  solver : String
  deriving DecidableEq, Repr

/-- The statements of `main` from `std::string solver = argv[arg++]` to the
creation of the particle container: the check `if (solver == "OPEN") throw
IpplException(...)` followed by `std::make_unique<bunch_type>(...)`. -/
def makeBunch (solver : String) : Except ViewTypes.IpplException bunch_type :=
  if solver = "OPEN" then
    Except.error ⟨"LandauDamping", "Open boundaries solver incompatible with this simulation!"⟩
  else
    Except.ok ⟨solver⟩

end Landau

namespace TestHalo

/-- The value of type `int` (32 bits, two's complement) that an integer
computation yields. -/
def toInt (x : Int) : Int := (x + 2 ^ 31) % 2 ^ 32 - 2 ^ 31

/-- The local to global index conversion of the kernel "Assign field",
`const size_t ig = i + lDom[0].first() - nghost;`: a computation in `int`
whose result is converted to `size_t`. -/
def localToGlobal (i first nghost : Int) : Int :=
  ViewTypes.size_t (toInt (toInt (i + first) - nghost))

end TestHalo

namespace ParticleSpatialLayout

/-- The benchmark's `unsigned long int nloc = totalP / Ippl::Comm->size();`. -/
def nloc (totalP commSize : Nat) : Nat := totalP / commSize

/-- The benchmark's `P->create(nloc)`, executed by each of the `commSize`
ranks: every rank gets `n` local particles (their positions are assigned
afterwards and play no part in the count). -/
def create (commSize n : Nat) : List (List Particle) :=
  List.replicate commSize (List.replicate n ⟨[], []⟩)

/-- The test `if (Total_particles != totalP)` of `gatherStatistics`, which
reports "Total particles not matched after update". -/
def notMatched (containers : List (List Particle)) (totalP : Nat) : Bool :=
  Total_particles containers != totalP % 2 ^ 32

end ParticleSpatialLayout

namespace FieldLayout

end FieldLayout

namespace ViewTypes
open HaloCells

/-- The `if constexpr (Dim == 1) ... else ...` statement of
`detail::createRangePolicy<Dim>(begin, end)`: `some policy` when the statement
executes `return policy`, `none` when control falls through it. The arguments
are of type `Kokkos::Array<index_type, Dim>`, arrays with `Dim` entries. -/
def createRangePolicyBranches (Dim : Nat) (lower upper : Fin Dim → Int) : Option policy_type :=
  if h : Dim = 1 then
    some (policy_type.RangePolicy (lower ⟨0, by omega⟩) (upper ⟨0, by omega⟩))
  else
    some (policy_type.MDRangePolicy (List.ofFn lower) (List.ofFn upper))

/-- The function `detail::createRangePolicy<Dim>(begin, end)` of `ViewTypes.h`:
the `if constexpr` statement followed by
`throw IpplException("detail::getRangePolicy", "Unreachable state")`. -/
def createRangePolicy (Dim : Nat) (lower upper : Fin Dim → Int) :
    Except IpplException policy_type :=
  match createRangePolicyBranches Dim lower upper with
  | some policy => Except.ok policy
  | none => Except.error ⟨"detail::getRangePolicy", "Unreachable state"⟩

end ViewTypes

namespace Landau

/-- The constant `constexpr unsigned Dim = 3` of the driver. -/
def Dim : Nat := 3

/-- The functor `custom_cdf` of the driver:
`x + (params[d*Dim+0] / params[d*Dim+1]) * Kokkos::sin(params[d*Dim+1] * x)`.
The sine `Kokkos::sin` is a parameter; `params` is the array behind the pointer
and `none` stands for a read outside of it. -/
def custom_cdf {K : Type} [Field K] (sin : K → K) (x : K) (d : Nat) (params : List K) :
    Option K :=
  match params[d * Dim + 0]?, params[d * Dim + 1]? with
  | some a, some k => some (x + (a / k) * sin (k * x))
  | _, _ => none

/-- The functor `custom_pdf` of the driver:
`1.0 + params[d*Dim+0] * Kokkos::cos(params[d*Dim+1] * x)`.
The cosine `Kokkos::cos` is a parameter; `params` is the array behind the
pointer and `none` stands for a read outside of it. -/
def custom_pdf {K : Type} [Field K] (cos : K → K) (x : K) (d : Nat) (params : List K) :
    Option K :=
  match params[d * Dim + 0]?, params[d * Dim + 1]? with
  | some a, some k => some (1 + a * cos (k * x))
  | _, _ => none

/-- The parameter array of the driver,
`const double parR[2*Dim] = {alpha, kw[0], alpha, kw[1], alpha, kw[2]}`. -/
def parR {K : Type} (alpha kw0 kw1 kw2 : K) : List K :=
  [alpha, kw0, alpha, kw1, alpha, kw2]

/-- The upper corner of the domain, `rmax = 2 * pi / kw`, component by
component. -/
def rmax {K : Type} [Field K] (pi : K) (kw : List K) : List K :=
  kw.map (fun k => 2 * pi / k)

/-- The total charge of the driver,
`Q = std::reduce(rmax.begin(), rmax.end(), -1., std::multiplies<double>())`. -/
def Q {K : Type} [Field K] (rmax : List K) : K :=
  rmax.foldl (fun acc r => acc * r) (-1)

end Landau

namespace benchmarkParticleUpdate

/-- The comparator of the benchmark, `bool comp(int a, int b) { return (a < b); }`. -/
def comp (a b : Int) : Bool := decide (a < b)

/-- Conversion of a floating-point value to `int`, as it happens when a
`double` is passed for an `int` parameter: the fractional part is discarded. -/
def toInt (x : ℚ) : Int := if 0 ≤ x then ⌊x⌋ else ⌈x⌉

/-- The library call `std::min(ilist, comp)` on a list with first element
`first`: the smallest element with respect to the comparator, the leftmost one
if several are equivalent. -/
def std_min {α : Type} (less : α → α → Bool) (first : α) (rest : List α) : α :=
  rest.foldl (fun smallest x => if less x smallest then x else smallest) first

/-- The mesh spacings of the benchmark, `dx = 1.0 / double(nr[0])` and likewise
`dy`, `dz`, with real numbers taken exact. -/
def spacing (nr : Int) : ℚ := 1 / (nr : ℚ)

/-- The value `double hr_min = std::min({dx, dy, dz}, comp)` of the benchmark:
`comp` takes its arguments as `int`, so every comparison is made on the
spacings converted to `int`. -/
def hr_min (nr0 nr1 nr2 : Int) : ℚ :=
  std_min (fun a b => comp (toInt a) (toInt b)) (spacing nr0) [spacing nr1, spacing nr2]

end benchmarkParticleUpdate

namespace ViewTypes
open HaloCells

/-- What `printLoop` sends to the output stream: the text of a value of the
view, the string `" "`, or `std::endl`. -/
inductive Token (T : Type)
  | value (v : T)
  | space
  | endl
  deriving DecidableEq, Repr

/-- The function `detail::printLoop<Dim, Current>(view, out, args...)` of
`ViewTypes.h`; the result is what it appends to `out`. The loop runs `i` over
`view.extent(Dim - Current - 1)`; in the innermost instance (`Dim - 1 ==
Current`) it writes `view(i, args...)` and a space, otherwise it calls
`printLoop<Dim, Current + 1>(view, out, i, args...)`; after the loop it writes
`std::endl` if `Current + 1 >= 2 || Current == 0`. The first argument bounds the
depth of the template recursion. -/
def printLoop {T : Type} (Dim : Nat) (view : View T) : Nat → Nat → List Nat → List (Token T)
  | 0, _, _ => []
  | depth + 1, Current, args =>
    (List.range (extent view (Dim - Current - 1))).flatMap (fun i =>
      if Dim - 1 = Current then [Token.value (view.data (i :: args)), Token.space]
      else printLoop Dim view depth (Current + 1) (i :: args))
    ++ (if Current + 1 ≥ 2 ∨ Current = 0 then [Token.endl] else [])

/-- The function `detail::write<T, Dim>(view, out)` of `ViewTypes.h`: it copies
the view to a host mirror and calls `printLoop<Dim>(hview, out)`; the template
recursion from `Current = 0` to `Current = Dim - 1` is `Dim` instances deep. -/
def write {T : Type} (Dim : Nat) (view : View T) : List (Token T) :=
  printLoop Dim view Dim 0 []

/-- The values of an output, in the order in which they were written. -/
def values {T : Type} : List (Token T) → List T
  | [] => []
  | Token.value v :: rest => v :: values rest
  | _ :: rest => values rest

/-- An output without its line ends. -/
def withoutEndl {T : Type} : List (Token T) → List (Token T)
  | [] => []
  | Token.endl :: rest => withoutEndl rest
  | t :: rest => t :: withoutEndl rest

/-- The number of line ends of an output. -/
def countEndl {T : Type} : List (Token T) → Nat
  | [] => 0
  | Token.endl :: rest => countEndl rest + 1
  | _ :: rest => countEndl rest

/-- The number of loops that `printLoop` runs for the extents `e_0, ..., e_m`
given slowest first: one at the outermost level, and one for every index of
the outer loop at the level below. -/
def loopCount : List Nat → Nat
  | [] => 0
  | [_] => 1
  | e :: rest => 1 + e * loopCount rest

/-- A view of extent 2 x 3 whose cell `(i, j)` holds `10 * i + j`. -/
def printView : View Int := ⟨[2, 3], fun idx => 10 * (idx.getD 0 0 : Int) + (idx.getD 1 0 : Int)⟩

end ViewTypes

namespace ViewTypes
open HaloCells

/-- The constant `detail::ExtractRank<ExecPolicy>::rank`: 1 for a
`Kokkos::RangePolicy`, the rank of the policy for a `Kokkos::MDRangePolicy`
(the number of entries of its begin array). -/
def ExtractRank : policy_type → Nat
  | policy_type.RangePolicy _ _ => 1
  | policy_type.MDRangePolicy lower _ => lower.length

/-- The index vector `args = {(index_type)x...}` that the call operator of
`FunctorWrapper` builds from its parameters `T... x`: the parameters have the
type `size_t` (the default of `Coords`), each is cast to
`RangePolicy<sizeof...(T)>::index_type`. The conversion to `index_type`, a
Kokkos type, is a parameter. -/
def wrapperArgs (index_type : Int → Int) (x : List Int) : List Int :=
  x.map (fun v => index_type (size_t v))

/-- The call operator `operator()(T... x)` of the wrapper that
`functorize<FOR, Dim>(f)` builds, `T...` being the `Dim` components of
`Coords<Dim>::type`: it calls `f(args)`. A call with another number of indices
than `Dim` does not exist (`none`). -/
def functorizeFOR {R : Type} (index_type : Int → Int) (Dim : Nat) (f : List Int → R)
    (x : List Int) : Option R :=
  if x.length = Dim then some (f (wrapperArgs index_type x)) else none

/-- The call operator `operator()(T... x, Acc& res)` of the wrapper that
`functorize<REDUCE, Dim, Acc>(f)` builds: it calls `f(args, res)`; the functor
`f` is given as the function from the accumulator before the call to the
accumulator after it. -/
def functorizeREDUCE {Acc : Type} (index_type : Int → Int) (Dim : Nat)
    (f : List Int → Acc → Acc) (x : List Int) (res : Acc) : Option Acc :=
  if x.length = Dim then some (f (wrapperArgs index_type x) res) else none

/-- The index tuples of a multi-dimensional range, first index fastest. -/
def indexTuples : List Int → List Int → List (List Int)
  | [], [] => [[]]
  | l :: ls, u :: us => (indexTuples ls us).flatMap (fun tl => (visited l u).map (fun i => i :: tl))
  | _, _ => []

/-- The index tuples for which Kokkos calls the functor of a loop over a
policy. -/
def policy_type.indices : policy_type → List (List Int)
  | policy_type.RangePolicy lower upper => (visited lower upper).map (fun i => [i])
  | policy_type.MDRangePolicy lower upper => indexTuples lower upper

/-- The function `ippl::parallel_for(name, policy, functor)`:
`Kokkos::parallel_for` with the wrapper
`functorize<FOR, ExtractRank<ExecPolicy>::rank>(functor)`; the result lists the
calls of the wrapper, one per index tuple of the policy. -/
def parallel_for {R : Type} (index_type : Int → Int) (policy : policy_type)
    (functor : List Int → R) : List (Option R) :=
  policy.indices.map (functorizeFOR index_type (ExtractRank policy) functor)

/-- The function `ippl::parallel_reduce(name, policy, functor, reducer)`:
`Kokkos::parallel_reduce` with the wrapper
`functorize<REDUCE, ExtractRank<ExecPolicy>::rank, value_type>(functor)`; the
accumulator is passed from call to call, starting from `init`. -/
def parallel_reduce {Acc : Type} (index_type : Int → Int) (policy : policy_type)
    (functor : List Int → Acc → Acc) (init : Acc) : Option Acc :=
  policy.indices.foldlM
    (fun res x => functorizeREDUCE index_type (ExtractRank policy) functor x res) init

end ViewTypes

namespace FieldLayout

/-- Modelled from the spec: the number of global indices of a multi-dimensional
index range (section 3, "Index range"), the product of the numbers of indices
of its one-dimensional ranges. -/
def NDIndex.cellCount (b : NDIndex) : Nat := (b.map Index.length).prod

end FieldLayout

/-! ## Theorems -/

namespace HaloCells

/-- C8: each of the three matching tables is an involution on its index range
(faces 0..5, edges 0..11, vertices 0..7), and every entry of a table is a valid
index of that table. -/
theorem match_tables_involution :
    (∀ f : Fin 6, ∃ m : Int, entry matchface_m (f.val : Int) = some m ∧
        0 ≤ m ∧ m < 6 ∧ entry matchface_m m = some (f.val : Int)) ∧
    (∀ e : Fin 12, ∃ m : Int, entry matchedge_m (e.val : Int) = some m ∧
        0 ≤ m ∧ m < 12 ∧ entry matchedge_m m = some (e.val : Int)) ∧
    (∀ v : Fin 8, ∃ m : Int, entry matchvertex_m (v.val : Int) = some m ∧
        0 ≤ m ∧ m < 8 ∧ entry matchvertex_m m = some (v.val : Int)) := by
  refine ⟨?_, ?_, ?_⟩
  · intro f; fin_cases f <;> exact ⟨_, rfl, by decide, by decide, rfl⟩
  · intro e; fin_cases e <;> exact ⟨_, rfl, by decide, by decide, rfl⟩
  · intro v; fin_cases v <;> exact ⟨_, rfl, by decide, by decide, rfl⟩

/-- C9: for every face index `f` in 0..5 the matched face lies on the same axis
(`matchface_m[f] / 2 = f / 2`), differs from `f`, and equals `f xor 1`; hence
slot `2*d` is matched with slot `2*d + 1` of the same axis `d` and vice versa. -/
theorem matchface_opposite_same_axis :
    (∀ f : Fin 6, ∃ m : Int, entry matchface_m (f.val : Int) = some m ∧
        m / 2 = (f.val : Int) / 2 ∧ m ≠ (f.val : Int) ∧ m.toNat = f.val ^^^ 1) ∧
    (∀ d : Fin 3, entry matchface_m (2 * (d.val : Int)) = some (2 * (d.val : Int) + 1) ∧
        entry matchface_m (2 * (d.val : Int) + 1) = some (2 * (d.val : Int))) := by
  refine ⟨?_, ?_⟩
  · intro f; fin_cases f <;> exact ⟨_, rfl, by decide, by decide, by decide⟩
  · intro d; fin_cases d <;> exact ⟨rfl, rfl⟩

/-- C10: for every vertex index `v` in 0..7, `matchvertex_m[v] = 7 - v`; all
three side bits are flipped, so the offset vector of the matched vertex is the
component-wise negation of the offset vector of `v`. -/
theorem matchvertex_antipodal :
    ∀ v : Fin 8, ∃ m : Int, entry matchvertex_m (v.val : Int) = some m ∧
      m = 7 - (v.val : Int) ∧
      (∀ d : Fin 3, sideBit m d.val = !sideBit (v.val : Int) d.val) ∧
      vertexOffset m = (vertexOffset (v.val : Int)).map (fun c => -c) := by
  intro v; fin_cases v <;> exact ⟨_, rfl, by decide, by decide, by decide⟩

end HaloCells

namespace FieldLayout

/-- The dimension found by `largestFrom` is a position of the box. -/
theorem largestFrom_bound (flags : List e_dim_tag) :
    ∀ (box : NDIndex) (i d m : Nat), largestFrom i box flags = some (d, m) →
      i ≤ d ∧ d < i + box.length := by
  induction flags with
  | nil => intro box i d m h; cases box <;> simp [largestFrom] at h
  | cons t ts ih =>
    intro box i d m h
    cases box with
    | nil => simp [largestFrom] at h
    | cons r b =>
      simp only [largestFrom] at h
      cases hrec : largestFrom (i + 1) b ts with
      | none =>
        rw [hrec] at h
        simp only at h
        split at h
        · simp only [Option.some.injEq, Prod.mk.injEq] at h
          simp only [List.length_cons]; omega
        · simp at h
      | some jm =>
        obtain ⟨j, m'⟩ := jm
        rw [hrec] at h
        simp only at h
        have hj := ih b (i + 1) j m' hrec
        split at h
        · simp only [Option.some.injEq, Prod.mk.injEq] at h
          simp only [List.length_cons]; omega
        · simp only [Option.some.injEq, Prod.mk.injEq] at h
          simp only [List.length_cons]; omega

/-- The split dimension is a dimension of the box. -/
theorem largestParallelDim_lt {box : NDIndex} {flags : List e_dim_tag} {d : Nat}
    (h : largestParallelDim box flags = some d) : d < box.length := by
  unfold largestParallelDim at h
  cases hl : largestFrom 0 box flags with
  | none => rw [hl] at h; simp at h
  | some jm =>
    obtain ⟨j, m⟩ := jm
    rw [hl] at h
    simp only [Option.map_some', Option.some.injEq] at h
    have := largestFrom_bound flags box 0 j m hl
    omega

/-- A cut of at most `length` indices covers the range. -/
theorem range_split_cover (r : Index) (k : Nat) (hk : k ≤ r.length) (x : Int) :
    r.contains x = ((r.split k).1.contains x || (r.split k).2.contains x) := by
  unfold Index.length at hk
  simp only [Index.contains, Index.split]
  rw [Bool.eq_iff_iff]
  simp only [Bool.and_eq_true, decide_eq_true_eq, Bool.or_eq_true]
  omega

/-- The two parts of a cut share no index. -/
theorem range_split_disjoint (r : Index) (k : Nat) (x : Int) :
    ¬ ((r.split k).1.contains x = true ∧ (r.split k).2.contains x = true) := by
  simp only [Index.contains, Index.split, Bool.and_eq_true, decide_eq_true_eq]
  omega

/-- Replacing the range of one dimension by two ranges that cover it gives
two boxes that cover the box. -/
theorem contains_set_cover (A B : Index) :
    ∀ (box : NDIndex) (d : Nat) (r : Index) (p : List Int), box[d]? = some r →
      (∀ x, r.contains x = (A.contains x || B.contains x)) →
      NDIndex.contains box p =
        (NDIndex.contains (box.set d A) p || NDIndex.contains (box.set d B) p) := by
  intro box
  induction box with
  | nil => intro d r p h; simp at h
  | cons q b ih =>
    intro d r p h hc
    cases p with
    | nil => cases d <;> simp [NDIndex.contains]
    | cons x p =>
      cases d with
      | zero =>
        simp only [List.getElem?_cons_zero, Option.some.injEq] at h
        subst h
        simp only [List.set_cons_zero, NDIndex.contains, hc x]
        cases A.contains x <;> cases B.contains x <;> simp
      | succ d =>
        simp only [List.getElem?_cons_succ] at h
        simp only [List.set_cons_succ, NDIndex.contains, ih d r p h hc]
        cases q.contains x <;> simp

/-- Replacing the range of one dimension by two disjoint ranges gives two
disjoint boxes. -/
theorem contains_set_disjoint (A B : Index)
    (hAB : ∀ x, ¬ (A.contains x = true ∧ B.contains x = true)) :
    ∀ (box : NDIndex) (d : Nat) (p : List Int), d < box.length →
      ¬ (NDIndex.contains (box.set d A) p = true ∧ NDIndex.contains (box.set d B) p = true) := by
  intro box
  induction box with
  | nil => intro d p h; simp at h
  | cons q b ih =>
    intro d p h
    cases p with
    | nil => cases d <;> simp [NDIndex.contains]
    | cons x p =>
      cases d with
      | zero =>
        simp only [List.set_cons_zero, NDIndex.contains, Bool.and_eq_true]
        intro hh
        exact hAB x ⟨hh.1.1, hh.2.1⟩
      | succ d =>
        simp only [List.length_cons, Nat.add_lt_add_iff_right] at h
        simp only [List.set_cons_succ, NDIndex.contains, Bool.and_eq_true]
        intro hh
        exact ih d p h ⟨hh.1.2, hh.2.2⟩


/-- The two halves of a split cover the box. -/
theorem box_split_cover (box : NDIndex) (d k : Nat) (hd : d < box.length)
    (hk : k ≤ (box.getD d (0, 0)).length) (p : List Int) :
    box.contains p = ((box.split d k).1.contains p || (box.split d k).2.contains p) := by
  have hget : box[d]? = some box[d] := List.getElem?_eq_getElem hd
  have hD : box.getD d (0, 0) = box[d] := by
    simp [List.getD, hget]
  rw [hD] at hk
  unfold NDIndex.split
  rw [hget]
  exact contains_set_cover _ _ box d box[d] p hget (range_split_cover box[d] k hk)

/-- The two halves of a split are disjoint. -/
theorem box_split_disjoint (box : NDIndex) (d k : Nat) (hd : d < box.length) :
    NDIndex.disjoint (box.split d k).1 (box.split d k).2 := by
  have hget : box[d]? = some box[d] := List.getElem?_eq_getElem hd
  intro p
  unfold NDIndex.split
  rw [hget]
  exact contains_set_disjoint _ _ (range_split_disjoint box[d] k) box d p hd

/-- Every successful bisection for `P` processes yields `P` pairwise disjoint
ranges whose union is the bisected range. -/
theorem bisect_partition (flags : List e_dim_tag) :
    ∀ (fuel : Nat) (box : NDIndex) (P : Nat) (table : List NDIndex),
      bisect flags fuel box P = some table →
      (0 < P → table.length = P) ∧ table.Pairwise NDIndex.disjoint ∧
      (∀ p, box.contains p = true ↔ ∃ b ∈ table, b.contains p = true) := by
  intro fuel
  induction fuel with
  | zero => intro box P table h; simp [bisect] at h
  | succ fuel ih =>
    intro box P table h
    simp only [bisect] at h
    split at h
    · simp at h
    · split at h
      · simp only [Option.some.injEq] at h
        subst h
        refine ⟨fun hP => ?_, by simp, fun p => by simp⟩
        simp only [List.length_singleton]; omega
      · rename_i hP1
        split at h
        · simp at h
        · rename_i d hd
          have hdlt := largestParallelDim_lt hd
          split at h
          · rename_i L R hL hR
            simp only [Option.some.injEq] at h
            subst h
            have hk : (box.getD d (0, 0)).length * (P / 2) / P ≤ (box.getD d (0, 0)).length := by
              apply Nat.div_le_of_le_mul
              rw [Nat.mul_comm P]
              exact Nat.mul_le_mul_left _ (Nat.div_le_self P 2)
            obtain ⟨hLlen, hLpw, hLcov⟩ := ih _ _ _ hL
            obtain ⟨hRlen, hRpw, hRcov⟩ := ih _ _ _ hR
            have hdis := box_split_disjoint box d
              ((box.getD d (0, 0)).length * (P / 2) / P) hdlt
            refine ⟨fun _ => ?_, ?_, fun p => ?_⟩
            · have h1 := hLlen (by omega)
              have h2 := hRlen (by omega)
              simp only [List.length_append]; omega
            · rw [List.pairwise_append]
              refine ⟨hLpw, hRpw, fun a ha b hb p hp => ?_⟩
              exact hdis p ⟨(hLcov p).mpr ⟨a, ha, hp.1⟩, (hRcov p).mpr ⟨b, hb, hp.2⟩⟩
            · rw [box_split_cover box d _ hdlt hk p, Bool.or_eq_true, hLcov p, hRcov p]
              simp only [List.mem_append]
              constructor
              · rintro (⟨b, hb, hp⟩ | ⟨b, hb, hp⟩)
                · exact ⟨b, Or.inl hb, hp⟩
                · exact ⟨b, Or.inr hb, hp⟩
              · rintro ⟨b, hb | hb, hp⟩
                · exact Or.inl ⟨b, hb, hp⟩
                · exact Or.inr ⟨b, hb, hp⟩
          · simp at h

/-- The recursion of `bisect` over `P` processes never runs out of fuel once the
fuel is at least `P`: any two such amounts of fuel give the same result. -/
theorem bisect_fuel (flags : List e_dim_tag) :
    ∀ (fuel fuel2 : Nat) (box : NDIndex) (P : Nat), 0 < P → P ≤ fuel → P ≤ fuel2 →
      bisect flags fuel box P = bisect flags fuel2 box P := by
  intro fuel
  induction fuel with
  | zero => intro fuel2 box P h0 h1 _; omega
  | succ fuel ih =>
    intro fuel2 box P h0 h1 h2
    cases fuel2 with
    | zero => omega
    | succ fuel2 =>
      simp only [bisect]
      by_cases hc : parallelCells box flags < P
      · simp [hc]
      · by_cases hP : P ≤ 1
        · simp [hc, hP]
        · simp only [hc, hP, if_false]
          cases largestParallelDim box flags with
          | none => rfl
          | some d =>
            simp only
            rw [ih fuel2 _ (P / 2) (by omega) (by omega) (by omega),
              ih fuel2 _ (P - P / 2) (by omega) (by omega) (by omega)]

/-- C1: whenever the decomposition of a global index range for `P` processes
succeeds, the Subdomain Table holds exactly `P` index ranges, these are pairwise
disjoint, their union is the whole global range, and every global index lies in
the subdomain of exactly one rank. -/
theorem decompose_partition (domain : NDIndex) (flags : List e_dim_tag) (P : Nat)
    (table : List NDIndex) (h : decompose domain flags P = some table) :
    table.length = P ∧
    table.Pairwise NDIndex.disjoint ∧
    (∀ p, domain.contains p = true ↔ ∃ b ∈ table, b.contains p = true) ∧
    (∀ p, domain.contains p = true →
      ∃! r : Fin table.length, (table.get r).contains p = true) := by
  have hP : 0 < P := by
    cases P with
    | zero => simp [decompose, bisect] at h
    | succ n => omega
  obtain ⟨hlen, hpw, hcov⟩ := bisect_partition flags P domain P table h
  refine ⟨hlen hP, hpw, hcov, fun p hp => ?_⟩
  obtain ⟨b, hb, hbp⟩ := (hcov p).mp hp
  obtain ⟨r, hr⟩ := List.mem_iff_get.mp hb
  subst hr
  refine ⟨r, hbp, fun s hs => ?_⟩
  by_contra hne
  have hpw2 := List.pairwise_iff_get.mp hpw
  rcases lt_or_gt_of_ne hne with hlt | hgt
  · exact hpw2 s r hlt p ⟨hs, hbp⟩
  · exact hpw2 r s hgt p ⟨hbp, hs⟩

/-- Witness for C1: a 4 x 4 x 4 range, all dimensions parallel, four processes. -/
theorem decompose_partition_witness :
    decompose [(0, 3), (0, 3), (0, 3)] [e_dim_tag.PARALLEL, e_dim_tag.PARALLEL, e_dim_tag.PARALLEL] 4 =
      some [[(0, 1), (0, 1), (0, 3)], [(0, 1), (2, 3), (0, 3)],
            [(2, 3), (0, 1), (0, 3)], [(2, 3), (2, 3), (0, 3)]] ∧
    ([[(0, 1), (0, 1), (0, 3)], [(0, 1), (2, 3), (0, 3)],
      [(2, 3), (0, 1), (0, 3)], [(2, 3), (2, 3), (0, 3)]] : List NDIndex).length = 4 :=
  ⟨by decide, (decompose_partition [(0, 3), (0, 3), (0, 3)]
    [e_dim_tag.PARALLEL, e_dim_tag.PARALLEL, e_dim_tag.PARALLEL] 4 _ (by decide)).1⟩

end FieldLayout

namespace ParticleSpatialLayout
open FieldLayout

/-- A sum over `List.range` as a sum over `Finset.range`. -/
theorem sum_map_range (f : Nat → Nat) (n : Nat) :
    ((List.range n).map f).sum = Finset.sum (Finset.range n) f := by
  induction n with
  | zero => simp
  | succ n ih => rw [List.sum_range_succ, Finset.sum_range_succ, ih]

/-- Length of the concatenation of the buffers of the selected ranks. -/
theorem length_flatMap_filter (q : Nat → Bool) (f : Nat → List Particle) (l : List Nat) :
    ((l.filter q).flatMap f).length = (l.map (fun i => if q i then (f i).length else 0)).sum := by
  induction l with
  | nil => simp
  | cons a l ih =>
    by_cases ha : q a = true
    · simp [List.filter_cons, ha, ih]
    · simp [List.filter_cons, ha, ih]

/-- The total count as a sum over the ranks. -/
theorem totalNum_eq (cs : List (List Particle)) :
    totalLocalNum cs = Finset.sum (Finset.range cs.length) (fun s => (cs.getD s []).length) := by
  rw [← sum_map_range]
  unfold totalLocalNum
  congr 1
  apply List.ext_getElem
  · simp
  · intro i h1 h2
    simp only [List.length_map] at h1
    simp [List.getD, List.getElem?_eq_getElem h1]

/-- A rank returned by the search is a rank of the table whose region contains
the position. -/
theorem locateFrom_spec (mesh : Mesh_t) (x : List ℚ) :
    ∀ (bs : List NDIndex) (i d : Nat), locateFrom mesh x i bs = some d →
      i ≤ d ∧ ∃ b, bs[d - i]? = some b ∧ inRegion b mesh.hr mesh.origin x = true := by
  intro bs
  induction bs with
  | nil => intro i d h; simp [locateFrom] at h
  | cons b bs ih =>
    intro i d h
    simp only [locateFrom] at h
    split at h
    · rename_i hb
      simp only [Option.some.injEq] at h
      subst h
      exact ⟨le_refl _, b, by simp, hb⟩
    · obtain ⟨h1, c, hc, hc2⟩ := ih (i + 1) d h
      refine ⟨by omega, c, ?_, hc2⟩
      have : d - i = (d - (i + 1)) + 1 := by omega
      rw [this, List.getElem?_cons_succ]
      exact hc

/-- The search succeeds when some region contains the position. -/
theorem locateFrom_isSome (mesh : Mesh_t) (x : List ℚ) :
    ∀ (bs : List NDIndex) (i : Nat), (∃ b ∈ bs, inRegion b mesh.hr mesh.origin x = true) →
      ∃ d, locateFrom mesh x i bs = some d := by
  intro bs
  induction bs with
  | nil => intro i h; simp at h
  | cons b bs ih =>
    intro i h
    simp only [locateFrom]
    split
    · exact ⟨i, rfl⟩
    · rename_i hb
      obtain ⟨c, hc, hc2⟩ := h
      rcases List.mem_cons.mp hc with rfl | hc'
      · exact absurd hc2 hb
      · exact ih (i + 1) ⟨c, hc', hc2⟩

/-- The region of the rank a particle is classified to contains its wrapped
position. -/
theorem classify_spec (pl : PLayout_t) (rank d : Nat) (p : Particle)
    (h : classify pl rank p = some d) :
    ∃ b, pl.table[d]? = some b ∧
      inRegion b pl.mesh.hr pl.mesh.origin (wrap pl.domain pl.mesh.hr pl.mesh.origin p.R) = true := by
  unfold classify at h
  simp only at h
  split at h
  · rename_i own hown
    split at h
    · rename_i hin
      simp only [Option.some.injEq] at h
      subst h
      exact ⟨own, hown, hin⟩
    · obtain ⟨_, b, hb, hb2⟩ := locateFrom_spec _ _ _ _ _ h
      exact ⟨b, by simpa using hb, hb2⟩
  · obtain ⟨_, b, hb, hb2⟩ := locateFrom_spec _ _ _ _ _ h
    exact ⟨b, by simpa using hb, hb2⟩

/-- A particle is only classified to ranks of the table. -/
theorem classify_lt (pl : PLayout_t) (rank d : Nat) (p : Particle)
    (h : classify pl rank p = some d) : d < pl.table.length := by
  obtain ⟨b, hb, _⟩ := classify_spec pl rank d p h
  by_contra hge
  rw [List.getElem?_eq_none (by omega)] at hb
  exact Option.noConfusion hb

/-- Per source rank: every local particle either stays or is in exactly one
send buffer. -/
theorem length_split (pl : PLayout_t) (s : Nat) (l : List Particle) :
    (l.filter (fun p => !departs pl s p)).length +
      Finset.sum (Finset.range pl.table.length)
        (fun r => if (r != s) = true then (sendBuffer pl s l r).length else 0) = l.length := by
  induction l with
  | nil => simp [sendBuffer]
  | cons p l ih =>
    have hsum :
        Finset.sum (Finset.range pl.table.length)
          (fun r => if (r != s) = true then (sendBuffer pl s (p :: l) r).length else 0) =
        Finset.sum (Finset.range pl.table.length)
          (fun r => if (r != s) = true then (sendBuffer pl s l r).length else 0) +
        Finset.sum (Finset.range pl.table.length)
          (fun r => if (r != s) = true ∧ classify pl s p = some r then 1 else 0) := by
      rw [← Finset.sum_add_distrib]
      apply Finset.sum_congr rfl
      intro r _
      by_cases hr : (r != s) = true
      · by_cases hc : classify pl s p = some r
        · simp [sendBuffer, List.filter_cons, hr, hc]
        · simp [sendBuffer, List.filter_cons, hr, hc]
      · simp [hr]
    rw [hsum]
    cases hc : classify pl s p with
    | none =>
      have hd : departs pl s p = false := by simp [departs, hc]
      simp only [List.filter_cons, hd, Bool.not_false, if_true, List.length_cons]
      simp only [reduceCtorEq, and_false, if_false, Finset.sum_const_zero]
      omega
    | some d =>
      by_cases hds : d = s
      · have hd : departs pl s p = false := by simp [departs, hc, hds]
        have hz : Finset.sum (Finset.range pl.table.length)
            (fun r => if (r != s) = true ∧ some d = some r then 1 else 0) = 0 := by
          apply Finset.sum_eq_zero
          intro r _
          have : ¬ ((r != s) = true ∧ some d = some r) := by
            rintro ⟨h1, h2⟩
            simp only [Option.some.injEq] at h2
            subst h2
            simp [hds] at h1
          rw [if_neg this]
        simp only [List.filter_cons, hd, Bool.not_false, if_true, List.length_cons, hz]
        omega
      · have hd : departs pl s p = true := by simp [departs, hc, hds]
        have hlt := classify_lt pl s d p hc
        have hz : Finset.sum (Finset.range pl.table.length)
            (fun r => if (r != s) = true ∧ some d = some r then 1 else 0) = 1 := by
          rw [Finset.sum_eq_single d]
          · simp [hds]
          · intro r _ hrd
            have : ¬ ((r != s) = true ∧ some d = some r) := by
              rintro ⟨_, h2⟩
              simp only [Option.some.injEq] at h2
              exact hrd h2.symm
            rw [if_neg this]
          · intro hnot
            exact absurd (Finset.mem_range.mpr hlt) hnot
        simp only [List.filter_cons, hd, Bool.not_true, Bool.false_eq_true, if_false, hz]
        simp only [List.length_cons]
        omega

/-- Count of a rank after the update: the stayers plus what every other rank
sends to it. -/
theorem length_updateRank (pl : PLayout_t) (cs : List (List Particle)) (r : Nat) :
    (updateRank pl cs r).length =
      ((cs.getD r []).filter (fun p => !departs pl r p)).length +
        Finset.sum (Finset.range cs.length)
          (fun s => if (s != r) = true then (sendBuffer pl s (cs.getD s []) r).length else 0) := by
  unfold updateRank
  rw [List.length_append, length_flatMap_filter, sum_map_range]
  congr 1
  apply Finset.sum_congr rfl
  intro s _
  simp [received, sendCount]

/-- The update conserves the total count. -/
theorem update_totalLocalNum (pl : PLayout_t) (containers : List (List Particle))
    (hlen : containers.length = pl.table.length) :
    totalLocalNum (update pl containers) = totalLocalNum containers := by
  rw [totalNum_eq containers]
  unfold totalLocalNum update
  rw [List.map_map, sum_map_range]
  have h1 : ∀ r ∈ Finset.range containers.length,
      (List.length ∘ updateRank pl containers) r =
        ((containers.getD r []).filter (fun p => !departs pl r p)).length +
        Finset.sum (Finset.range containers.length)
          (fun s => if (s != r) = true
            then (sendBuffer pl s (containers.getD s []) r).length else 0) := by
    intro r _
    exact length_updateRank pl containers r
  rw [Finset.sum_congr rfl h1, Finset.sum_add_distrib, Finset.sum_comm, ← Finset.sum_add_distrib]
  apply Finset.sum_congr rfl
  intro s _
  have h2 := length_split pl s (containers.getD s [])
  rw [← hlen] at h2
  rw [← h2]
  congr 1
  apply Finset.sum_congr rfl
  intro r _
  by_cases hrs : r = s
  · simp [hrs]
  · have : ¬ s = r := fun h => hrs h.symm
    simp [hrs, this]

/-- Summing truncated counts modulo `M` is summing the counts modulo `M`. -/
theorem sum_map_mod (M : Nat) (ls : List (List Particle)) :
    (ls.map (fun locals => locals.length % M)).sum % M = (ls.map List.length).sum % M := by
  induction ls with
  | nil => rfl
  | cons l ls ih =>
    simp only [List.map_cons, List.sum_cons]
    rw [Nat.add_mod, ih, Nat.mod_mod, ← Nat.add_mod]

/-- The 32-bit sum of `gatherStatistics` is the total count modulo `2 ^ 32`. -/
theorem Total_particles_eq_mod (containers : List (List Particle)) :
    Total_particles containers = totalLocalNum containers % 2 ^ 32 :=
  sum_map_mod (2 ^ 32) containers

/-- C4: the total particle count summed over all ranks is the same before and
after a particle update, whatever the positions of the particles are; so is the
value `Total_particles` that `gatherStatistics` obtains by summing
`getLocalNum()` over all ranks in 32-bit unsigned arithmetic. -/
theorem update_totalNum (pl : PLayout_t) (containers : List (List Particle))
    (hlen : containers.length = pl.table.length) :
    totalLocalNum (update pl containers) = totalLocalNum containers ∧
    Total_particles (update pl containers) = Total_particles containers := by
  have h := update_totalLocalNum pl containers hlen
  exact ⟨h, by rw [Total_particles_eq_mod, Total_particles_eq_mod, h]⟩

/-- Witness for C4: the benchmark layout with two particles on each rank. -/
theorem update_totalNum_witness :
    benchParticles.length = benchLayout.table.length ∧
    totalLocalNum (update benchLayout benchParticles) = totalLocalNum benchParticles ∧
    Total_particles (update benchLayout benchParticles) = Total_particles benchParticles :=
  ⟨by decide, update_totalNum benchLayout benchParticles (by decide)⟩

/-- Extent of a non-empty range as a rational number. -/
theorem length_cast (g : Index) (hg : g.1 ≤ g.2) :
    ((g.length : Nat) : ℚ) = (g.2 : ℚ) - (g.1 : ℚ) + 1 := by
  unfold Index.length
  have h : ((g.2 - g.1 + 1).toNat : Int) = g.2 - g.1 + 1 := Int.toNat_of_nonneg (by omega)
  have h2 : (((g.2 - g.1 + 1).toNat : Int) : ℚ) = ((g.2 - g.1 + 1 : Int) : ℚ) := by rw [h]
  push_cast at h2
  exact_mod_cast h2

/-- A wrapped coordinate lies in the physical extent of the global range. -/
theorem wrapCoord_bounds (g : Index) (h o x : ℚ) (hg : g.1 ≤ g.2) (hh : 0 < h) :
    o + (g.1 : ℚ) * h ≤ wrapCoord g h o x ∧ wrapCoord g h o x < o + ((g.2 : ℚ) + 1) * h := by
  have hn := length_cast g hg
  have hnpos : (0 : ℚ) < ((g.length : Nat) : ℚ) := by
    rw [hn]
    have : (g.1 : ℚ) ≤ (g.2 : ℚ) := by exact_mod_cast hg
    linarith
  have hL : (0 : ℚ) < ((g.length : Nat) : ℚ) * h := mul_pos hnpos hh
  unfold wrapCoord
  set L : ℚ := ((g.length : Nat) : ℚ) * h with hLdef
  set y : ℚ := x - (o + (g.1 : ℚ) * h) with hy
  have h1 : (⌊y / L⌋ : ℚ) ≤ y / L := Int.floor_le _
  have h2 : y / L < (⌊y / L⌋ : ℚ) + 1 := Int.lt_floor_add_one _
  have h3 : L * (⌊y / L⌋ : ℚ) ≤ y := by
    have := mul_le_mul_of_nonneg_left h1 (le_of_lt hL)
    rwa [mul_div_cancel₀ _ (ne_of_gt hL)] at this
  have h4 : y < L * ((⌊y / L⌋ : ℚ) + 1) := by
    have := mul_lt_mul_of_pos_left h2 hL
    rwa [mul_div_cancel₀ _ (ne_of_gt hL)] at this
  have hLe : L = ((g.2 : ℚ) - (g.1 : ℚ) + 1) * h := by rw [hLdef, hn]
  constructor
  · have : x = y + (o + (g.1 : ℚ) * h) := by rw [hy]; ring
    linarith
  · have : x = y + (o + (g.1 : ℚ) * h) := by rw [hy]; ring
    nlinarith

/-- A coordinate inside the region of a range lies in a cell of that range. -/
theorem cell_contains (g : Index) (h o x : ℚ) (hh : 0 < h)
    (h1 : o + (g.1 : ℚ) * h ≤ x) (h2 : x < o + ((g.2 : ℚ) + 1) * h) :
    g.contains ⌊(x - o) / h⌋ = true := by
  simp only [Index.contains, Bool.and_eq_true, decide_eq_true_eq]
  constructor
  · rw [Int.le_floor, le_div_iff₀ hh]
    linarith
  · rw [← Int.lt_add_one_iff, Int.floor_lt, div_lt_iff₀ hh]
    push_cast
    linarith

/-- A coordinate whose cell belongs to a range lies in the region of the range. -/
theorem cell_inRegion (r : Index) (h o x : ℚ) (hh : 0 < h)
    (hc : r.contains ⌊(x - o) / h⌋ = true) :
    o + (r.1 : ℚ) * h ≤ x ∧ x < o + ((r.2 : ℚ) + 1) * h := by
  simp only [Index.contains, Bool.and_eq_true, decide_eq_true_eq] at hc
  obtain ⟨h1, h2⟩ := hc
  rw [Int.le_floor, le_div_iff₀ hh] at h1
  rw [← Int.lt_add_one_iff, Int.floor_lt, div_lt_iff₀ hh] at h2
  push_cast at h2
  constructor <;> linarith

/-- The cell of a wrapped position is a global index. -/
theorem wrap_cells :
    ∀ (dom : NDIndex) (hs os xs : List ℚ), (∀ g ∈ dom, g.1 ≤ g.2) → (∀ h ∈ hs, 0 < h) →
      hs.length = dom.length → os.length = dom.length → xs.length = dom.length →
      dom.contains (cellIndex hs os (wrap dom hs os xs)) = true := by
  intro dom
  induction dom with
  | nil =>
    intro hs os xs _ _ h1 h2 h3
    simp only [List.length_nil, List.length_eq_zero] at h1 h2 h3
    subst h1 h2 h3
    simp [wrap, cellIndex, NDIndex.contains]
  | cons g gs ih =>
    intro hs os xs hg hh h1 h2 h3
    cases hs with
    | nil => simp at h1
    | cons h hs =>
      cases os with
      | nil => simp at h2
      | cons o os =>
        cases xs with
        | nil => simp at h3
        | cons x xs =>
          simp only [List.length_cons, Nat.add_right_cancel_iff] at h1 h2 h3
          simp only [wrap, cellIndex, NDIndex.contains, Bool.and_eq_true]
          have hg0 := hg g (List.mem_cons_self _ _)
          have hh0 := hh h (List.mem_cons_self _ _)
          obtain ⟨b1, b2⟩ := wrapCoord_bounds g h o x hg0 hh0
          refine ⟨cell_contains g h o _ hh0 b1 b2, ?_⟩
          exact ih hs os xs (fun g' hg' => hg g' (List.mem_cons_of_mem _ hg'))
            (fun h' hh' => hh h' (List.mem_cons_of_mem _ hh')) h1 h2 h3

/-- A position whose cell belongs to a box lies in the region of the box. -/
theorem cells_inRegion :
    ∀ (b : NDIndex) (hs os xs : List ℚ), (∀ h ∈ hs, 0 < h) →
      hs.length = xs.length → os.length = xs.length →
      b.contains (cellIndex hs os xs) = true → inRegion b hs os xs = true := by
  intro b
  induction b with
  | nil =>
    intro hs os xs _ h1 h2 hc
    cases xs with
    | nil =>
      simp only [List.length_nil, List.length_eq_zero] at h1 h2
      subst h1 h2
      simp [inRegion]
    | cons x xs =>
      cases hs with
      | nil => simp at h1
      | cons h hs =>
        cases os with
        | nil => simp at h2
        | cons o os => simp [cellIndex, NDIndex.contains] at hc
  | cons r rs ih =>
    intro hs os xs hh h1 h2 hc
    cases xs with
    | nil =>
      simp only [List.length_nil, List.length_eq_zero] at h1 h2
      subst h1 h2
      simp [cellIndex, NDIndex.contains] at hc
    | cons x xs =>
      cases hs with
      | nil => simp at h1
      | cons h hs =>
        cases os with
        | nil => simp at h2
        | cons o os =>
          simp only [List.length_cons, Nat.add_right_cancel_iff] at h1 h2
          simp only [cellIndex, NDIndex.contains, Bool.and_eq_true] at hc
          have hh0 := hh h (List.mem_cons_self _ _)
          obtain ⟨c1, c2⟩ := cell_inRegion r h o x hh0 hc.1
          simp only [inRegion, Bool.and_eq_true, decide_eq_true_eq]
          exact ⟨⟨c1, c2⟩, ih hs os xs (fun h' hh' => hh h' (List.mem_cons_of_mem _ hh')) h1 h2 hc.2⟩

/-- Wrapping keeps the number of coordinates. -/
theorem wrap_length :
    ∀ (dom : NDIndex) (hs os xs : List ℚ),
      hs.length = dom.length → os.length = dom.length → xs.length = dom.length →
      (wrap dom hs os xs).length = dom.length := by
  intro dom
  induction dom with
  | nil => intro hs os xs _ _ _; cases hs <;> cases os <;> cases xs <;> simp [wrap]
  | cons g gs ih =>
    intro hs os xs h1 h2 h3
    cases hs with
    | nil => simp at h1
    | cons h hs =>
      cases os with
      | nil => simp at h2
      | cons o os =>
        cases xs with
        | nil => simp at h3
        | cons x xs =>
          simp only [List.length_cons, Nat.add_right_cancel_iff] at h1 h2 h3
          simp only [wrap, List.length_cons, Nat.add_right_cancel_iff]
          exact ih hs os xs h1 h2 h3

/-- Under a gap-free table every wrapped position lies in the region of some
subdomain. -/
theorem exists_region (pl : PLayout_t) (R : List ℚ)
    (hcover : ∀ c, pl.domain.contains c = true → ∃ b ∈ pl.table, b.contains c = true)
    (hdom : ∀ g ∈ pl.domain, g.1 ≤ g.2) (hh : ∀ h ∈ pl.mesh.hr, 0 < h)
    (hl1 : pl.mesh.hr.length = pl.domain.length) (hl2 : pl.mesh.origin.length = pl.domain.length)
    (hl3 : R.length = pl.domain.length) :
    ∃ b ∈ pl.table, inRegion b pl.mesh.hr pl.mesh.origin
      (wrap pl.domain pl.mesh.hr pl.mesh.origin R) = true := by
  have hw := wrap_length pl.domain pl.mesh.hr pl.mesh.origin R hl1 hl2 hl3
  obtain ⟨b, hb, hbc⟩ := hcover _ (wrap_cells pl.domain pl.mesh.hr pl.mesh.origin R hdom hh hl1 hl2 hl3)
  exact ⟨b, hb, cells_inRegion b _ _ _ hh (by omega) (by omega) hbc⟩

/-- Classification succeeds when some region contains the wrapped position. -/
theorem classify_isSome (pl : PLayout_t) (rank : Nat) (p : Particle)
    (hex : ∃ b ∈ pl.table, inRegion b pl.mesh.hr pl.mesh.origin
      (wrap pl.domain pl.mesh.hr pl.mesh.origin p.R) = true) :
    ∃ d, classify pl rank p = some d := by
  unfold classify
  simp only
  split
  · split
    · exact ⟨rank, rfl⟩
    · exact locateFrom_isSome _ _ _ _ hex
  · exact locateFrom_isSome _ _ _ _ hex

/-- A particle held by a rank after the update either stayed there or was sent
there by a rank that classified it to this rank. -/
theorem mem_updateRank (pl : PLayout_t) (cs : List (List Particle)) (r : Nat) (p : Particle)
    (hp : p ∈ updateRank pl cs r) :
    (p ∈ cs.getD r [] ∧ departs pl r p = false) ∨
      ∃ s, s < cs.length ∧ p ∈ cs.getD s [] ∧ classify pl s p = some r := by
  unfold updateRank at hp
  rw [List.mem_append] at hp
  rcases hp with hp | hp
  · rw [List.mem_filter] at hp
    exact Or.inl ⟨hp.1, by simpa using hp.2⟩
  · rw [List.mem_flatMap] at hp
    obtain ⟨s, hs, hps⟩ := hp
    rw [List.mem_filter, List.mem_range] at hs
    unfold received at hps
    have hps2 := List.mem_of_mem_take hps
    unfold sendBuffer at hps2
    rw [List.mem_filter] at hps2
    exact Or.inr ⟨s, hs.1, hps2.1, by simpa using hps2.2⟩

/-- C5: after a particle update, for every rank and every particle held by that
rank, the periodically wrapped position of the particle lies inside the physical
region of the subdomain of that rank (for a gap-free Subdomain Table over a
non-empty global range, a mesh with positive spacing, and positions with one
coordinate per dimension). -/
theorem update_ownership (pl : PLayout_t) (containers : List (List Particle))
    (hcover : ∀ c, pl.domain.contains c = true → ∃ b ∈ pl.table, b.contains c = true)
    (hdom : ∀ g ∈ pl.domain, g.1 ≤ g.2) (hh : ∀ h ∈ pl.mesh.hr, 0 < h)
    (hl1 : pl.mesh.hr.length = pl.domain.length) (hl2 : pl.mesh.origin.length = pl.domain.length)
    (hR : ∀ l ∈ containers, ∀ p ∈ l, p.R.length = pl.domain.length) :
    ∀ (rank : Nat) (locals : List Particle), (update pl containers)[rank]? = some locals →
      ∀ p ∈ locals, ∃ own, pl.table[rank]? = some own ∧
        inRegion own pl.mesh.hr pl.mesh.origin
          (wrap pl.domain pl.mesh.hr pl.mesh.origin p.R) = true := by
  intro rank locals hl p hp
  unfold update at hl
  rw [List.getElem?_map] at hl
  have hrank : rank < containers.length := by
    by_contra hge
    rw [List.getElem?_eq_none (by simpa using hge)] at hl
    simp at hl
  rw [List.getElem?_eq_getElem (by simpa using hrank)] at hl
  simp only [List.getElem_range, Option.map_some', Option.some.injEq] at hl
  subst hl
  have hmemD : ∀ s, ∀ q ∈ containers.getD s [], q.R.length = pl.domain.length := by
    intro s q hq
    by_cases hs : s < containers.length
    · rw [List.getD_eq_getElem _ _ hs] at hq
      exact hR _ (List.getElem_mem hs) q hq
    · simp [List.getD, List.getElem?_eq_none (not_lt.mp hs)] at hq
  rcases mem_updateRank pl containers rank p hp with ⟨hmem, hstay⟩ | ⟨s, _, hmem, hcl⟩
  · have hex := exists_region pl p.R hcover hdom hh hl1 hl2 (hmemD rank p hmem)
    obtain ⟨d, hd⟩ := classify_isSome pl rank p hex
    have hdr : d = rank := by
      simp only [departs, hd] at hstay
      simpa using hstay
    subst hdr
    exact classify_spec pl d d p hd
  · exact classify_spec pl s rank p hcl

/-- The table of the benchmark layout has no gap. -/
theorem bench_cover :
    ∀ c, benchLayout.domain.contains c = true →
      ∃ b ∈ benchLayout.table, b.contains c = true := by
  have h := bisect_partition [e_dim_tag.PARALLEL] 2 [(0, 3)] 2 [[(0, 1)], [(2, 3)]] (by decide)
  exact fun c hc => (h.2.2 c).mp hc

/-- The global range of the benchmark layout has four cells. -/
theorem bench_length : Index.length ((0, 3) : Index) = 4 := by decide

/-- The floor of `9 / 8` is one. -/
theorem bench_floor : ⌊(9 / 8 : ℚ)⌋ = 1 := by
  rw [Int.floor_eq_iff]; norm_num

/-- The position `9 / 8` wraps to `1 / 8`. -/
theorem bench_wrap :
    wrap benchLayout.domain benchLayout.mesh.hr benchLayout.mesh.origin [9 / 8] = [1 / 8] := by
  simp only [benchLayout, wrap, wrapCoord, bench_length]
  norm_num [bench_floor]

/-- Rank 1 classifies its particle at `9 / 8` to rank 0. -/
theorem bench_classify : classify benchLayout 1 ⟨[9 / 8], [4]⟩ = some 0 := by
  unfold classify
  simp only [bench_wrap]
  simp only [benchLayout, List.getElem?_cons_succ, List.getElem?_cons_zero, inRegion, locateFrom]
  norm_num

/-- After the update rank 0 holds the particle that was at `9 / 8` on rank 1. -/
theorem bench_mem : (⟨[9 / 8], [4]⟩ : Particle) ∈ updateRank benchLayout benchParticles 0 := by
  unfold updateRank
  rw [List.mem_append]
  right
  rw [List.mem_flatMap]
  refine ⟨1, by decide, ?_⟩
  unfold received sendCount
  rw [List.take_length]
  unfold sendBuffer
  rw [List.mem_filter]
  refine ⟨by simp [benchParticles], ?_⟩
  rw [bench_classify]
  simp

/-- Every benchmark particle has one coordinate. -/
theorem bench_positions :
    ∀ l ∈ benchParticles, ∀ p ∈ l, p.R.length = benchLayout.domain.length := by
  intro l hl p hp
  simp only [benchParticles, List.mem_cons, List.mem_singleton, List.not_mem_nil, or_false] at hl
  rcases hl with rfl | rfl
  · simp only [List.mem_cons, List.mem_singleton, List.not_mem_nil, or_false] at hp
    rcases hp with rfl | rfl <;> rfl
  · simp only [List.mem_cons, List.mem_singleton, List.not_mem_nil, or_false] at hp
    rcases hp with rfl | rfl <;> rfl

/-- The mesh spacing of the benchmark layout is positive. -/
theorem bench_spacing : ∀ h ∈ benchLayout.mesh.hr, (0 : ℚ) < h := by
  intro h hh
  simp only [benchLayout, List.mem_singleton] at hh
  subst hh
  norm_num

/-- Witness for C5: in the benchmark layout the particle at `9 / 8`, held by
rank 1 before the update, is held by rank 0 after it, and its wrapped position
`1 / 8` lies in the region of rank 0. -/
theorem update_ownership_witness :
    (∀ c, benchLayout.domain.contains c = true →
      ∃ b ∈ benchLayout.table, b.contains c = true) ∧
    (∀ g ∈ benchLayout.domain, g.1 ≤ g.2) ∧
    (∀ h ∈ benchLayout.mesh.hr, (0 : ℚ) < h) ∧
    benchLayout.mesh.hr.length = benchLayout.domain.length ∧
    benchLayout.mesh.origin.length = benchLayout.domain.length ∧
    (∀ l ∈ benchParticles, ∀ p ∈ l, p.R.length = benchLayout.domain.length) ∧
    (update benchLayout benchParticles)[0]? = some (updateRank benchLayout benchParticles 0) ∧
    (⟨[9 / 8], [4]⟩ : Particle) ∈ updateRank benchLayout benchParticles 0 ∧
    ∃ own, benchLayout.table[0]? = some own ∧
      inRegion own benchLayout.mesh.hr benchLayout.mesh.origin
        (wrap benchLayout.domain benchLayout.mesh.hr benchLayout.mesh.origin [9 / 8]) = true :=
  ⟨bench_cover, by decide, bench_spacing, rfl, rfl, bench_positions, rfl, bench_mem,
    update_ownership benchLayout benchParticles bench_cover (by decide) bench_spacing rfl rfl
      bench_positions 0 (updateRank benchLayout benchParticles 0) rfl ⟨[9 / 8], [4]⟩ bench_mem⟩

end ParticleSpatialLayout

namespace Landau

/-- C7: the driver performs the initial repartition (`initializeORB` followed by
`repartition` with `isFirstRepartition = true`) if and only if the threshold
differs from 1.0 and the process count is greater than 1; with threshold 1.0 or
a single process the block issues no call at all. -/
theorem firstRepartition_iff (loadbalancethreshold_m : ℚ) (commSize : Int) :
    (firstRepartition loadbalancethreshold_m commSize =
        [Call.assignInitialRho, Call.fence, Call.initializeORB, Call.repartition true] ↔
      (loadbalancethreshold_m ≠ 1 ∧ 1 < commSize)) ∧
    ((Call.initializeORB ∈ firstRepartition loadbalancethreshold_m commSize ∨
        Call.repartition true ∈ firstRepartition loadbalancethreshold_m commSize) ↔
      (loadbalancethreshold_m ≠ 1 ∧ 1 < commSize)) ∧
    ((loadbalancethreshold_m = 1 ∨ commSize ≤ 1) ↔
      firstRepartition loadbalancethreshold_m commSize = []) := by
  unfold firstRepartition
  by_cases h : loadbalancethreshold_m ≠ 1 ∧ commSize > 1
  · have h2 : ¬ (loadbalancethreshold_m = 1 ∨ commSize ≤ 1) := by
      rintro (h3 | h3)
      · exact h.1 h3
      · omega
    simp [h, h2]
  · have h2 : loadbalancethreshold_m = 1 ∨ commSize ≤ 1 := by
      by_contra h3
      push_neg at h3
      exact h ⟨h3.1, h3.2⟩
    have h4 : ¬ (¬ loadbalancethreshold_m = 1 ∧ 1 < commSize) := fun h5 => h ⟨h5.1, h5.2⟩
    simp [h, h2, h4]

/-- C6 (counterexample): with the per-rank counts 3, 0, 0 the relative imbalance
is 2. With the threshold at the sentinel 1.0 it exceeds the threshold, and yet
the time loop triggers no repartition; the same happens with threshold 0.01 at
a step at which the cadence (here every tenth step) is not reached. -/
theorem loopRepartition_sentinel_counterexample :
    imbalance [3, 0, 0] = 2 ∧
    ¬ (loopRepartition 1 (fun _ => true) [3, 0, 0] 0 = [Call.repartition false] ↔
        imbalance [3, 0, 0] > 1) ∧
    ¬ (loopRepartition (1 / 100) (fun n => n % 10 == 0) [3, 0, 0] 0 = [Call.repartition false] ↔
        imbalance [3, 0, 0] > 1 / 100) := by
  have h : imbalance [3, 0, 0] = 2 := by
    norm_num [imbalance]
  refine ⟨h, ?_, ?_⟩
  · rw [h]
    norm_num [loopRepartition, balance]
  · rw [h]
    norm_num [loopRepartition, balance]

/-- C6 (amended): the time loop triggers a repartition exactly when rebalancing
is enabled (threshold different from 1.0 and more than one process), the cadence
is reached at this step, and the relative imbalance `(max - average) / average`
of the per-rank work metric exceeds the threshold; in particular at or below
the threshold no repartition is triggered. -/
theorem loopRepartition_iff (loadbalancethreshold_m : ℚ) (cadence : Nat → Bool)
    (metric : List Nat) (it : Nat) :
    (loopRepartition loadbalancethreshold_m cadence metric it = [Call.repartition false] ↔
      (loadbalancethreshold_m ≠ 1 ∧ 1 < metric.length ∧ cadence (it + 1) = true ∧
        imbalance metric > loadbalancethreshold_m)) ∧
    (imbalance metric ≤ loadbalancethreshold_m →
      loopRepartition loadbalancethreshold_m cadence metric it = []) := by
  unfold loopRepartition balance
  by_cases h1 : loadbalancethreshold_m = 1
  · simp [h1]
  · by_cases h2 : metric.length ≤ 1
    · have h3 : ¬ (1 < metric.length) := by omega
      simp [h2, h3]
    · have h3 : 1 < metric.length := by omega
      by_cases h4 : cadence (it + 1) = true
      · by_cases h5 : imbalance metric > loadbalancethreshold_m
        · have h6 : ¬ (imbalance metric ≤ loadbalancethreshold_m) := not_le.mpr h5
          simp [h1, h2, h3, h4, h5, h6]
        · have h6 : imbalance metric ≤ loadbalancethreshold_m := not_lt.mp h5
          simp [h1, h2, h3, h4, h5, h6]
      · simp [h1, h2, h4]

end Landau

namespace HaloCells

/-- C11: for every edge index `e` in 0..11 the matched edge lies in the same
block of four (`matchedge_m[e] / 4 = e / 4`) and has in-block index
`3 - e % 4`, that is both side-selecting bits of the in-block index are
flipped. -/
theorem matchedge_same_block_flipped :
    ∀ e : Fin 12, ∃ m : Int, entry matchedge_m (e.val : Int) = some m ∧
      m / 4 = (e.val : Int) / 4 ∧ m % 4 = 3 - (e.val : Int) % 4 ∧
      (∀ d : Fin 2, sideBit (m % 4) d.val = !sideBit ((e.val : Int) % 4) d.val) := by
  intro e; fin_cases e <;> exact ⟨_, rfl, by decide, by decide, by decide⟩

/-- C12: the three matching tables have 6, 12 and 8 entries, exactly the numbers
of offset vectors in `{-1, 0, 1}^3` with one, two and three non-zero components;
together these are all `3^3 - 1 = 26` non-zero neighbor directions. -/
theorem match_tables_sizes :
    matchface_m.length = 6 ∧ matchedge_m.length = 12 ∧ matchvertex_m.length = 8 ∧
    (directions 1).length = matchface_m.length ∧
    (directions 2).length = matchedge_m.length ∧
    (directions 3).length = matchvertex_m.length ∧
    offsets3.length = 3 ^ 3 ∧
    (offsets3.filter (fun v => v != [0, 0, 0])).length = 3 ^ 3 - 1 ∧
    matchface_m.length + matchedge_m.length + matchvertex_m.length = 3 ^ 3 - 1 ∧
    (∀ v ∈ offsets3, v ≠ [0, 0, 0] →
      v ∈ directions 1 ∨ v ∈ directions 2 ∨ v ∈ directions 3) := by
  refine ⟨rfl, rfl, rfl, by decide, by decide, by decide, by decide, by decide, by decide, ?_⟩
  decide

end HaloCells

namespace HaloCells

/-- Cells outside the unpacked range keep their value. -/
theorem unpackLoop_outside {T : Type} (Op : T → T → T) (buffer : List T) :
    ∀ (cs : List (List Nat)) (l : Nat) (data d : List Nat → T),
      unpackLoop Op buffer cs l data = some d → ∀ idx, idx ∉ cs → d idx = data idx := by
  intro cs
  induction cs with
  | nil =>
    intro l data d h idx _
    simp only [unpackLoop, Option.some.injEq] at h
    rw [← h]
  | cons c cs ih =>
    intro l data d h idx hidx
    simp only [unpackLoop] at h
    cases hb : buffer[l]? with
    | none => rw [hb] at h; simp at h
    | some b =>
      rw [hb] at h
      simp only at h
      have h1 := ih (l + 1) _ d h idx (fun hin => hidx (List.mem_cons_of_mem _ hin))
      rw [h1]
      have hne : idx ≠ c := fun he => hidx (he ▸ List.mem_cons_self _ _)
      exact Function.update_noteq hne _ _

/-- With the operator `assign` the outcome of the unpack loop does not depend
on what the cells of the range held before: two runs from data that agree on a
set of cells agree afterwards on that set and on every cell of the range. -/
theorem unpackLoop_assign_agree {T : Type} (buffer : List T) :
    ∀ (cs : List (List Nat)) (l : Nat) (S : List Nat → Prop) (data1 data2 d1 d2 : List Nat → T),
      unpackLoop assign buffer cs l data1 = some d1 →
      unpackLoop assign buffer cs l data2 = some d2 →
      (∀ idx, S idx → data1 idx = data2 idx) →
      ∀ idx, S idx ∨ idx ∈ cs → d1 idx = d2 idx := by
  intro cs
  induction cs with
  | nil =>
    intro l S data1 data2 d1 d2 h1 h2 hS idx hidx
    simp only [unpackLoop, Option.some.injEq] at h1 h2
    rw [← h1, ← h2]
    rcases hidx with h | h
    · exact hS idx h
    · simp at h
  | cons c cs ih =>
    intro l S data1 data2 d1 d2 h1 h2 hS idx hidx
    simp only [unpackLoop] at h1 h2
    cases hb : buffer[l]? with
    | none => rw [hb] at h1; simp at h1
    | some b =>
      rw [hb] at h1 h2
      simp only at h1 h2
      refine ih (l + 1) (fun i => S i ∨ i = c) _ _ d1 d2 h1 h2 ?_ idx ?_
      · intro i hi
        by_cases hic : i = c
        · subst hic
          simp [assign]
        · rw [Function.update_noteq hic, Function.update_noteq hic]
          rcases hi with hi | hi
          · exact hS i hi
          · exact absurd hi hic
      · rcases hidx with h | h
        · exact Or.inl (Or.inl h)
        · rcases List.mem_cons.mp h with h | h
          · exact Or.inl (Or.inr h)
          · exact Or.inr h

/-- The unpack loop succeeds exactly when the buffer has an entry for every
cell; in particular its success does not depend on the data. -/
theorem unpackLoop_isSome {T : Type} (Op : T → T → T) (buffer : List T) :
    ∀ (cs : List (List Nat)) (l : Nat) (data : List Nat → T),
      l + cs.length ≤ buffer.length → ∃ d, unpackLoop Op buffer cs l data = some d := by
  intro cs
  induction cs with
  | nil => intro l data _; exact ⟨data, rfl⟩
  | cons c cs ih =>
    intro l data h
    simp only [List.length_cons] at h
    simp only [unpackLoop]
    have hl : l < buffer.length := by omega
    rw [List.getElem?_eq_getElem hl]
    exact ih (l + 1) _ (by omega)

/-- A successful unpack loop had an entry of the buffer for every cell. -/
theorem unpackLoop_length {T : Type} (Op : T → T → T) (buffer : List T) :
    ∀ (cs : List (List Nat)) (l : Nat) (data d : List Nat → T),
      unpackLoop Op buffer cs l data = some d → cs = [] ∨ l + cs.length ≤ buffer.length := by
  intro cs
  induction cs with
  | nil => intro l data d _; exact Or.inl rfl
  | cons c cs ih =>
    intro l data d h
    right
    simp only [unpackLoop] at h
    cases hb : buffer[l]? with
    | none => rw [hb] at h; simp at h
    | some b =>
      rw [hb] at h
      simp only at h
      have hl : l < buffer.length := by
        by_contra hge
        rw [List.getElem?_eq_none (by omega)] at hb
        exact Option.noConfusion hb
      rcases ih (l + 1) _ d h with h1 | h1
      · subst h1; simp only [List.length_cons, List.length_nil]; omega
      · simp only [List.length_cons]; omega

/-- C13: the unpack operator `assign` of `fillHalo` overwrites: after
`assign(lhs, rhs)` the destination equals the received value whatever it held
before, so its earlier content has no influence; unpacking a buffer with
`assign` gives on the cells of the range a result that does not depend on the
earlier content of the view, and unpacking the same buffer a second time
changes nothing. -/
theorem assign_overwrites {T : Type} :
    (∀ lhs rhs : T, assign lhs rhs = rhs) ∧
    (∀ lhs1 lhs2 rhs : T, assign lhs1 rhs = assign lhs2 rhs) ∧
    (∀ lhs rhs : T, assign (assign lhs rhs) rhs = assign lhs rhs) ∧
    (∀ (range : bound_type) (view1 view2 : View T) (fd : FieldBufferData T) (r1 r2 : View T),
      unpack assign range view1 fd = some r1 → unpack assign range view2 fd = some r2 →
      ∀ idx ∈ cells range.lo range.hi, r1.data idx = r2.data idx) ∧
    (∀ (range : bound_type) (view : View T) (fd : FieldBufferData T) (once : View T),
      unpack assign range view fd = some once →
      ∃ twice, unpack assign range once fd = some twice ∧
        twice.extent = once.extent ∧ ∀ idx, twice.data idx = once.data idx) := by
  refine ⟨fun _ _ => rfl, fun _ _ _ => rfl, fun _ _ => rfl, ?_, ?_⟩
  · intro range view1 view2 fd r1 r2 h1 h2 idx hidx
    unfold unpack at h1 h2
    split at h1
    · split at h2
      · simp only [Option.map_eq_some'] at h1 h2
        obtain ⟨d1, hd1, rfl⟩ := h1
        obtain ⟨d2, hd2, rfl⟩ := h2
        exact unpackLoop_assign_agree fd.buffer _ 0 (fun _ => False) _ _ d1 d2 hd1 hd2
          (fun _ hF => hF.elim) idx (Or.inr hidx)
      · simp at h2
    · simp at h1
  · intro range view fd once h
    unfold unpack at h
    split at h
    · rename_i hin
      simp only [Option.map_eq_some'] at h
      obtain ⟨d1, hd1, rfl⟩ := h
      have hlen := unpackLoop_length assign fd.buffer _ 0 _ d1 hd1
      have hex : ∃ d2, unpackLoop assign fd.buffer (cells range.lo range.hi) 0 d1 = some d2 := by
        rcases hlen with h0 | h0
        · rw [h0]; exact ⟨d1, rfl⟩
        · exact unpackLoop_isSome assign fd.buffer _ 0 d1 h0
      obtain ⟨d2, hd2⟩ := hex
      refine ⟨⟨view.extent, d2⟩, ?_, rfl, ?_⟩
      · unfold unpack
        simp only [hin, if_true, hd2, Option.map_some']
      · intro idx
        have hout := unpackLoop_outside assign fd.buffer _ 0 _ d1 hd1
        have := unpackLoop_assign_agree fd.buffer _ 0
          (fun i => i ∉ cells range.lo range.hi) d1 view.data d2 d1 hd2 hd1
          (fun i hi => hout i hi) idx
          (by by_cases hm : idx ∈ cells range.lo range.hi
              · exact Or.inr hm
              · exact Or.inl hm)
        exact this
    · simp at h

/-- C14: the unpack operator `plus_assign` of `accumulateHalo` adds: after
`plus_assign(lhs, rhs)` the destination is its previous value plus the received
value, so after unpacking a finite list of contributions into a cell the cell
holds its initial value plus their sum, in whatever order they arrive (exact
arithmetic). -/
theorem plus_assign_accumulates {T : Type} [AddCommMonoid T] :
    (∀ lhs rhs : T, plus_assign lhs rhs = lhs + rhs) ∧
    (∀ (init : T) (contributions : List T),
      contributions.foldl plus_assign init = init + contributions.sum) ∧
    (∀ (init : T) (arrival1 arrival2 : List T), arrival1.Perm arrival2 →
      arrival1.foldl plus_assign init = arrival2.foldl plus_assign init) := by
  have hsum : ∀ (contributions : List T) (init : T),
      contributions.foldl plus_assign init = init + contributions.sum := by
    intro contributions
    induction contributions with
    | nil => intro init; simp
    | cons c cs ih =>
      intro init
      rw [List.foldl_cons, ih, List.sum_cons, plus_assign, add_assoc]
  refine ⟨fun _ _ => rfl, fun init cs => hsum cs init, ?_⟩
  intro init a1 a2 hperm
  rw [hsum, hsum, hperm.sum_eq]

/-- Witness for C13: unpacking the buffer 1, 2, 3, 4 with `assign` into the
sub-range of the sample view stores 1 in cell `(1, 0)` and 4 in cell `(2, 1)`,
keeps cell `(0, 0)`, and a second unpack of the same buffer changes nothing. -/
theorem assign_overwrites_witness :
    ∃ once : View Int, unpack assign sampleRange sampleView ⟨[1, 2, 3, 4]⟩ = some once ∧
      once.data [1, 0] = 1 ∧ once.data [2, 1] = 4 ∧ once.data [0, 0] = sampleView.data [0, 0] ∧
      ∃ twice, unpack assign sampleRange once ⟨[1, 2, 3, 4]⟩ = some twice ∧
        twice.extent = once.extent ∧ ∀ idx, twice.data idx = once.data idx :=
  ⟨_, rfl, by decide, by decide, by decide,
    (assign_overwrites (T := Int)).2.2.2.2 sampleRange sampleView ⟨[1, 2, 3, 4]⟩ _ rfl⟩

/-- Witness for C14: the contributions 1, 2, 3 added to a cell that holds 10
give 16, also when they arrive in the order 3, 1, 2. -/
theorem plus_assign_accumulates_witness :
    ([1, 2, 3] : List Int).Perm [3, 1, 2] ∧
    ([1, 2, 3] : List Int).foldl plus_assign 10 = 16 ∧
    ([1, 2, 3] : List Int).foldl plus_assign 10 = ([3, 1, 2] : List Int).foldl plus_assign 10 :=
  ⟨by decide, by decide,
    (plus_assign_accumulates (T := Int)).2.2 10 [1, 2, 3] [3, 1, 2] (by decide)⟩

/-- Number of index tuples obtained by prefixing every tuple of a list with
`n` consecutive indices. -/
theorem length_prefix_cells (l n : Nat) (L : List (List Nat)) :
    (L.flatMap (fun tl => (List.range' l n).map (fun i => i :: tl))).length = L.length * n := by
  induction L with
  | nil => simp
  | cons a L ih =>
    rw [List.flatMap_cons, List.length_append, ih, List.length_map, List.length_range',
      List.length_cons, Nat.succ_mul, Nat.add_comm]

/-- A sub-range inside a view has `cellCount` cells. -/
theorem cells_length :
    ∀ (lo hi extent : List Nat), inside lo hi extent = true →
      (cells lo hi).length = cellCount lo hi := by
  intro lo
  induction lo with
  | nil =>
    intro hi extent h
    cases hi with
    | nil => rfl
    | cons a as => cases extent <;> simp [inside] at h
  | cons l ls ih =>
    intro hi extent h
    cases hi with
    | nil => cases extent <;> simp [inside] at h
    | cons a as =>
      cases extent with
      | nil => simp [inside] at h
      | cons e es =>
        simp only [inside, Bool.and_eq_true, decide_eq_true_eq] at h
        simp only [cells, cellCount]
        rw [length_prefix_cells, ih as es h.2, Nat.mul_comm]

/-- Unpacking with `assign` a buffer that holds at the linear position of every
cell the value the cell already has leaves the data as it is. -/
theorem unpackLoop_assign_same {T : Type} (buffer : List T) (orig : List Nat → T) :
    ∀ (cs : List (List Nat)) (l : Nat) (data : List Nat → T),
      (∀ j, ∀ hj : j < cs.length, buffer[l + j]? = some (orig (cs.get ⟨j, hj⟩))) →
      (∀ idx, data idx = orig idx) →
      ∃ d, unpackLoop assign buffer cs l data = some d ∧ ∀ idx, d idx = orig idx := by
  intro cs
  induction cs with
  | nil => intro l data _ hdata; exact ⟨data, rfl, hdata⟩
  | cons c cs ih =>
    intro l data hbuf hdata
    have h0 := hbuf 0 (by simp)
    simp only [Nat.add_zero, List.get_eq_getElem, List.getElem_cons_zero] at h0
    simp only [unpackLoop, h0]
    apply ih (l + 1)
    · intro j hj
      have := hbuf (j + 1) (by simp only [List.length_cons]; omega)
      simp only [List.get_eq_getElem, List.getElem_cons_succ] at this
      have e : l + 1 + j = l + (j + 1) := by omega
      simp only [List.get_eq_getElem]
      rw [e]
      exact this
    · intro idx
      by_cases hic : idx = c
      · subst hic
        simp [assign]
      · rw [Function.update_noteq hic]
        exact hdata idx

/-- C16: packing and unpacking are inverse on a range. For a view and a
sub-range inside it, `pack` sets `nsends` to the number of cells of the range
and fills the front of the buffer with the linearised copy of those cells, and
a following `unpack<assign>` over the same range succeeds and leaves every cell
of the view unchanged. -/
theorem pack_unpack_inverse {T : Type} (range : bound_type) (view : View T)
    (fd : FieldBufferData T) (hin : inside range.lo range.hi view.extent = true) :
    ∃ (packed : FieldBufferData T) (nsends : Nat) (after : View T),
      pack range view fd = some (packed, nsends) ∧
      nsends = (cells range.lo range.hi).length ∧
      nsends = cellCount range.lo range.hi ∧
      packed.buffer.take nsends = (cells range.lo range.hi).map view.data ∧
      unpack assign range view packed = some after ∧
      after.extent = view.extent ∧ ∀ idx, after.data idx = view.data idx := by
  have hbuf : ∀ j, ∀ hj : j < (cells range.lo range.hi).length,
      (List.map view.data (cells range.lo range.hi) ++
        List.drop (List.map view.data (cells range.lo range.hi)).length fd.buffer)[0 + j]? =
      some (view.data ((cells range.lo range.hi).get ⟨j, hj⟩)) := by
    intro j hj
    rw [Nat.zero_add, List.getElem?_append_left (by simpa using hj)]
    simp [List.getElem?_eq_getElem hj]
  obtain ⟨d, hd, hsame⟩ := unpackLoop_assign_same _ view.data (cells range.lo range.hi) 0
    view.data hbuf (fun _ => rfl)
  refine ⟨⟨(cells range.lo range.hi).map view.data ++
      fd.buffer.drop ((cells range.lo range.hi).map view.data).length⟩,
    ((cells range.lo range.hi).map view.data).length, ⟨view.extent, d⟩, ?_, ?_, ?_, ?_, ?_, rfl,
    hsame⟩
  · simp [pack, hin]
  · simp
  · rw [List.length_map]; exact cells_length _ _ _ hin
  · simp
  · unfold unpack
    rw [if_pos hin]
    simp only
    rw [hd]
    rfl

/-- Witness for C16: packing the sub-range of the sample view gives the four
values 10, 20, 11, 21 (index 0 fastest) and unpacking them restores the view. -/
theorem pack_unpack_inverse_witness :
    inside sampleRange.lo sampleRange.hi sampleView.extent = true ∧
    pack sampleRange sampleView ⟨[]⟩ = some (⟨[10, 20, 11, 21]⟩, 4) ∧
    ∃ (packed : FieldBufferData Int) (nsends : Nat) (after : View Int),
      pack sampleRange sampleView ⟨[]⟩ = some (packed, nsends) ∧
      nsends = (cells sampleRange.lo sampleRange.hi).length ∧
      nsends = cellCount sampleRange.lo sampleRange.hi ∧
      packed.buffer.take nsends = (cells sampleRange.lo sampleRange.hi).map sampleView.data ∧
      unpack assign sampleRange sampleView packed = some after ∧
      after.extent = sampleView.extent ∧ ∀ idx, after.data idx = sampleView.data idx :=
  ⟨by decide, by decide, pack_unpack_inverse sampleRange sampleView ⟨[]⟩ (by decide)⟩

end HaloCells

namespace ViewTypes
open HaloCells

/-- A subtraction in `size_t` of two values in range with a non-negative
result is exact. -/
theorem size_t_sub (e : Nat) (s : Int) (he : e < 2 ^ 64) (h0 : 0 ≤ s) (hs : s ≤ (e : Int)) :
    size_t (size_t (e : Int) - size_t s) = (e : Int) - s := by
  have he2 : (e : Int) < 2 ^ 64 := by exact_mod_cast he
  have h1 : size_t (e : Int) = e := Int.emod_eq_of_lt (by omega) he2
  have h2 : size_t s = s := Int.emod_eq_of_lt h0 (by omega)
  rw [h1, h2]
  exact Int.emod_eq_of_lt (by omega) (by omega)

/-- A Kokkos range visits the indices from `lower` (included) to `upper`
(excluded). -/
theorem mem_visited (lower upper i : Int) : i ∈ visited lower upper ↔ lower ≤ i ∧ i < upper := by
  simp only [visited, List.mem_map, List.mem_range]
  constructor
  · rintro ⟨k, hk, rfl⟩
    omega
  · intro h
    exact ⟨(i - lower).toNat, by omega, by omega⟩

/-- A Kokkos range visits `upper - lower` indices. -/
theorem length_visited (lower upper : Int) (h : lower ≤ upper) :
    ((visited lower upper).length : Int) = upper - lower := by
  simp only [visited, List.length_map, List.length_range]
  omega

/-- The call `view.extent(d)` returns an entry of the extents for a dimension
of the view. -/
theorem extent_mem {T : Type} (view : View T) (d : Nat) (hd : d < view.extent.length) :
    extent view d ∈ view.extent := by
  unfold extent
  rw [List.getD_eq_getElem _ _ hd]
  exact List.getElem_mem hd

/-- C15: for a view of dimension `Dim` and a shift `s` with `0 <= 2 * s <=
extent(d)` in every dimension, `getRangePolicy(view, s)` returns the range with
begin `s` and end `extent(d) - s` in every dimension `d` (for `Dim = 1`: begin
`s`, end `size() - s`); it visits exactly the indices `i` with
`s <= i < extent(d) - s`, which are `extent(d) - 2 * s` many; with `s = 0`
these are all indices of the view. -/
theorem getRangePolicy_spans {T : Type} (Dim : Nat) (view : View T) (s : Int)
    (hrank : view.extent.length = Dim) (hfit : ∀ e ∈ view.extent, e < 2 ^ 64)
    (hs0 : 0 ≤ s) (hs : ∀ e ∈ view.extent, 2 * s ≤ (e : Int)) :
    ∃ policy, getRangePolicy Dim view s = Except.ok policy ∧
      (Dim = 1 → policy = policy_type.RangePolicy s ((size view : Int) - s)) ∧
      (Dim ≠ 1 → policy = policy_type.MDRangePolicy
        ((List.range Dim).map (fun _ => s))
        ((List.range Dim).map (fun d => (extent view d : Int) - s))) ∧
      (∀ d, d < Dim →
        policy.bounds d = some (s, (extent view d : Int) - s) ∧
        ((visited s ((extent view d : Int) - s)).length : Int) = (extent view d : Int) - 2 * s ∧
        (∀ i, i ∈ visited s ((extent view d : Int) - s) ↔
          s ≤ i ∧ i < (extent view d : Int) - s) ∧
        (s = 0 → ∀ i : Int, i ∈ visited s ((extent view d : Int) - s) ↔
          0 ≤ i ∧ i < (extent view d : Int))) := by
  have hsub : ∀ d, d < Dim →
      size_t (size_t (extent view d : Int) - size_t s) = (extent view d : Int) - s := by
    intro d hd
    have hm := extent_mem view d (by omega)
    exact size_t_sub _ s (hfit _ hm) hs0 (by have := hs _ hm; omega)
  have hvis : ∀ d, d < Dim →
      ((visited s ((extent view d : Int) - s)).length : Int) = (extent view d : Int) - 2 * s ∧
      (∀ i, i ∈ visited s ((extent view d : Int) - s) ↔
        s ≤ i ∧ i < (extent view d : Int) - s) ∧
      (s = 0 → ∀ i : Int, i ∈ visited s ((extent view d : Int) - s) ↔
        0 ≤ i ∧ i < (extent view d : Int)) := by
    intro d hd
    have hm := hs _ (extent_mem view d (by omega))
    refine ⟨?_, fun i => mem_visited _ _ i, ?_⟩
    · rw [length_visited _ _ (by omega)]; ring
    · intro h0 i
      rw [mem_visited, h0]
      simp
  by_cases h1 : Dim = 1
  · have hlen : view.extent.length = 1 := by rw [hrank, h1]
    obtain ⟨n, hn⟩ := List.length_eq_one.mp hlen
    have hsize : size view = extent view 0 := by
      simp [size, extent, hn]
    have h0 := hsub 0 (by omega)
    refine ⟨policy_type.RangePolicy s ((size view : Int) - s), ?_, fun _ => rfl,
      fun hne => absurd h1 hne, ?_⟩
    · simp only [getRangePolicy, getRangePolicyBranches, h1, if_true]
      rw [hsize, h0]
    · intro d hd
      have hd0 : d = 0 := by omega
      subst hd0
      refine ⟨?_, hvis 0 hd⟩
      simp [policy_type.bounds, hsize]
  · refine ⟨policy_type.MDRangePolicy ((List.range Dim).map (fun _ => s))
      ((List.range Dim).map (fun d => (extent view d : Int) - s)), ?_,
      fun he => absurd he h1, fun _ => rfl, ?_⟩
    · simp only [getRangePolicy, getRangePolicyBranches, h1, if_false]
      congr 2
      apply List.map_congr_left
      intro d hd
      exact hsub d (List.mem_range.mp hd)
    · intro d hd
      refine ⟨?_, hvis d hd⟩
      simp [policy_type.bounds, List.getElem?_range hd, List.getElem?_replicate, hd]

/-- Witness for C15: a view of extent 6 x 5 x 4 with one ghost cell at each
extreme is spanned from 1 to 5, 4 and 3. -/
theorem getRangePolicy_spans_witness :
    getRangePolicy 3 (⟨[6, 5, 4], fun _ => (0 : Int)⟩ : View Int) 1 =
      Except.ok (policy_type.MDRangePolicy [1, 1, 1] [5, 4, 3]) ∧
    ∃ policy, getRangePolicy 3 (⟨[6, 5, 4], fun _ => (0 : Int)⟩ : View Int) 1 =
        Except.ok policy ∧
      (3 = 1 → policy = policy_type.RangePolicy 1
        ((size (⟨[6, 5, 4], fun _ => (0 : Int)⟩ : View Int) : Int) - 1)) ∧
      (3 ≠ 1 → policy = policy_type.MDRangePolicy
        ((List.range 3).map (fun _ => (1 : Int)))
        ((List.range 3).map
          (fun d => (extent (⟨[6, 5, 4], fun _ => (0 : Int)⟩ : View Int) d : Int) - 1))) ∧
      (∀ d, d < 3 →
        policy.bounds d =
          some (1, (extent (⟨[6, 5, 4], fun _ => (0 : Int)⟩ : View Int) d : Int) - 1) ∧
        ((visited 1 ((extent (⟨[6, 5, 4], fun _ => (0 : Int)⟩ : View Int) d : Int) - 1)).length
            : Int) =
          (extent (⟨[6, 5, 4], fun _ => (0 : Int)⟩ : View Int) d : Int) - 2 * 1 ∧
        (∀ i, i ∈ visited 1 ((extent (⟨[6, 5, 4], fun _ => (0 : Int)⟩ : View Int) d : Int) - 1) ↔
          1 ≤ i ∧ i < (extent (⟨[6, 5, 4], fun _ => (0 : Int)⟩ : View Int) d : Int) - 1) ∧
        ((1 : Int) = 0 → ∀ i : Int,
          i ∈ visited 1 ((extent (⟨[6, 5, 4], fun _ => (0 : Int)⟩ : View Int) d : Int) - 1) ↔
            0 ≤ i ∧ i < (extent (⟨[6, 5, 4], fun _ => (0 : Int)⟩ : View Int) d : Int))) :=
  ⟨rfl, getRangePolicy_spans 3 ⟨[6, 5, 4], fun _ => (0 : Int)⟩ 1 rfl (by decide) (by decide)
    (by decide)⟩

end ViewTypes

namespace Landau

/-- C17: the driver throws `IpplException("LandauDamping", ...)`, and creates no
particle container, if and only if the solver-type argument equals the string
"OPEN"; for every other solver string the check does not throw and the
container is created. -/
theorem makeBunch_rejects_open (solver : String) :
    (makeBunch solver = Except.error
        ⟨"LandauDamping", "Open boundaries solver incompatible with this simulation!"⟩ ↔
      solver = "OPEN") ∧
    ((∃ e, makeBunch solver = Except.error e) ↔ solver = "OPEN") ∧
    (∀ e, makeBunch solver = Except.error e → e.location = "LandauDamping") ∧
    (solver ≠ "OPEN" ↔ makeBunch solver = Except.ok ⟨solver⟩) := by
  unfold makeBunch
  by_cases h : solver = "OPEN"
  · simp [h]
  · simp [h]

end Landau

namespace TestHalo

/-- Within the owned range the conversion is exact: no operation wraps. -/
theorem localToGlobal_exact (n first nghost i : Int) (hf : 0 ≤ first)
    (hlast : first + n ≤ 2 ^ 31) (h1 : nghost ≤ i) (h2 : i < n + 2 * nghost - nghost) :
    localToGlobal i first nghost = i + first - nghost := by
  unfold localToGlobal ViewTypes.size_t toInt
  omega

/-- C19: for a view of extent `n + 2 * nghost` over the owned range
`[first, first + n - 1]` with `first >= 0`, the conversion
`ig = i + first - nghost` maps every interior local index `i`
(`nghost <= i < extent - nghost`) to a global index `ig` with
`first <= ig <= first + n - 1` without wrapping, distinct `i` give distinct
`ig`, and every owned global index is reached. -/
theorem localToGlobal_bijection (n first nghost : Int) (hf : 0 ≤ first)
    (hlast : first + n ≤ 2 ^ 31) :
    (∀ i, nghost ≤ i → i < n + 2 * nghost - nghost →
      localToGlobal i first nghost = i + first - nghost ∧
      first ≤ localToGlobal i first nghost ∧ localToGlobal i first nghost ≤ first + n - 1) ∧
    (∀ i j, nghost ≤ i → i < n + 2 * nghost - nghost →
      nghost ≤ j → j < n + 2 * nghost - nghost →
      localToGlobal i first nghost = localToGlobal j first nghost → i = j) ∧
    (∀ ig, first ≤ ig → ig ≤ first + n - 1 →
      ∃ i, nghost ≤ i ∧ i < n + 2 * nghost - nghost ∧ localToGlobal i first nghost = ig) := by
  refine ⟨?_, ?_, ?_⟩
  · intro i h1 h2
    rw [localToGlobal_exact n first nghost i hf hlast h1 h2]
    omega
  · intro i j hi1 hi2 hj1 hj2 h
    rw [localToGlobal_exact n first nghost i hf hlast hi1 hi2,
      localToGlobal_exact n first nghost j hf hlast hj1 hj2] at h
    omega
  · intro ig h1 h2
    refine ⟨ig - first + nghost, by omega, by omega, ?_⟩
    rw [localToGlobal_exact n first nghost _ hf hlast (by omega) (by omega)]
    omega

/-- Witness for C19: rank 1 of the example, which owns the global indices 2
and 3 with one ghost cell: the local indices 1 and 2 map to 2 and 3. -/
theorem localToGlobal_bijection_witness :
    (0 : Int) ≤ 2 ∧ (2 : Int) + 2 ≤ 2 ^ 31 ∧
    localToGlobal 1 2 1 = 2 ∧ localToGlobal 2 2 1 = 3 ∧
    (∀ i, (1 : Int) ≤ i → i < 2 + 2 * 1 - 1 →
      localToGlobal i 2 1 = i + 2 - 1 ∧
      2 ≤ localToGlobal i 2 1 ∧ localToGlobal i 2 1 ≤ 2 + 2 - 1) :=
  ⟨by decide, by decide, by decide, by decide,
    (localToGlobal_bijection 2 2 1 (by decide) (by decide)).1⟩

end TestHalo

namespace ParticleSpatialLayout

/-- The ranks together create `commSize * n` particles. -/
theorem totalLocalNum_create (commSize n : Nat) :
    totalLocalNum (create commSize n) = commSize * n := by
  simp [totalLocalNum, create]

/-- The benchmark creates `totalP - totalP % P` particles in total: the
remainder of the division by the process count is dropped. -/
theorem totalLocalNum_create_nloc (totalP commSize : Nat) :
    totalLocalNum (create commSize (nloc totalP commSize)) = totalP - totalP % commSize := by
  rw [totalLocalNum_create, nloc]
  have := Nat.div_add_mod totalP commSize
  omega

/-- C20 (evaluation at the failing input): with `totalP = 10` and 3 processes
every rank creates `10 / 3 = 3` particles, 9 in total, and the check of
`gatherStatistics` against `totalP` reports a mismatch although no update has
taken place; the totals agree only when the process count divides `totalP`. -/
theorem create_drops_remainder :
    nloc 10 3 = 3 ∧
    totalLocalNum (create 3 (nloc 10 3)) = 9 ∧
    Total_particles (create 3 (nloc 10 3)) = 9 ∧
    notMatched (create 3 (nloc 10 3)) 10 = true ∧
    (∀ totalP commSize : Nat, 0 < commSize →
      (totalLocalNum (create commSize (nloc totalP commSize)) = totalP ↔
        totalP % commSize = 0)) := by
  refine ⟨by decide, by decide, by decide, by decide, ?_⟩
  intro totalP commSize _
  rw [totalLocalNum_create_nloc]
  have := Nat.mod_le totalP commSize
  omega

end ParticleSpatialLayout

namespace FieldLayout

end FieldLayout

namespace ViewTypes
open HaloCells

/-- C21: `getRangePolicy` and `createRangePolicy` never raise: for every `Dim`
and every input the `if constexpr` statement returns a policy from one of its
two branches, so the trailing `throw` is not reached; `createRangePolicy`
returns the policy with exactly the given begin and end (`begin[0]`, `end[0]`
when `Dim = 1`). -/
theorem rangePolicy_never_throws {T : Type} :
    (∀ (Dim : Nat) (view : View T) (shift : Int),
      (∃ policy, getRangePolicyBranches Dim view shift = some policy ∧
        getRangePolicy Dim view shift = Except.ok policy) ∧
      ∀ e, getRangePolicy Dim view shift ≠ Except.error e) ∧
    (∀ (Dim : Nat) (lower upper : Fin Dim → Int),
      (∃ policy, createRangePolicyBranches Dim lower upper = some policy ∧
        createRangePolicy Dim lower upper = Except.ok policy ∧
        (∀ h : Dim = 1, policy =
          policy_type.RangePolicy (lower ⟨0, by omega⟩) (upper ⟨0, by omega⟩)) ∧
        (Dim ≠ 1 → policy = policy_type.MDRangePolicy (List.ofFn lower) (List.ofFn upper))) ∧
      ∀ e, createRangePolicy Dim lower upper ≠ Except.error e) := by
  constructor
  · intro Dim view shift
    by_cases h : Dim = 1
    · constructor
      · refine ⟨policy_type.RangePolicy shift (size_t (size_t (size view) - size_t shift)),
          ?_, ?_⟩
        · simp only [getRangePolicyBranches, h, if_true]
        · simp only [getRangePolicy, getRangePolicyBranches, h, if_true]
      · intro e he
        simp [getRangePolicy, getRangePolicyBranches, h] at he
    · constructor
      · refine ⟨policy_type.MDRangePolicy ((List.range Dim).map (fun _ => shift))
          ((List.range Dim).map (fun d => size_t (size_t (extent view d) - size_t shift))),
          ?_, ?_⟩
        · simp only [getRangePolicyBranches, h, if_false]
        · simp only [getRangePolicy, getRangePolicyBranches, h, if_false]
      · intro e he
        simp [getRangePolicy, getRangePolicyBranches, h] at he
  · intro Dim lower upper
    by_cases h : Dim = 1
    · constructor
      · refine ⟨policy_type.RangePolicy (lower ⟨0, by omega⟩) (upper ⟨0, by omega⟩), ?_, ?_,
          fun _ => rfl, fun hne => absurd h hne⟩
        · simp only [createRangePolicyBranches, h, dif_pos]
        · simp only [createRangePolicy, createRangePolicyBranches, h, dif_pos]
      · intro e he
        simp [createRangePolicy, createRangePolicyBranches, h] at he
    · constructor
      · refine ⟨policy_type.MDRangePolicy (List.ofFn lower) (List.ofFn upper), ?_, ?_,
          fun h1 => absurd h1 h, fun _ => rfl⟩
        · simp only [createRangePolicyBranches, h, dif_neg, not_false_eq_true]
        · simp only [createRangePolicy, createRangePolicyBranches, h, dif_neg, not_false_eq_true]
      · intro e he
        simp [createRangePolicy, createRangePolicyBranches, h] at he

end ViewTypes

namespace Landau

/-- What `custom_pdf` and `custom_cdf` read from the parameter array of the
driver: for `d = 0` the amplitude `alpha` and the wavenumber `kw[0]`, for
`d = 1` the entries `kw[1]` and `alpha` in exchanged roles, for `d = 2` the
entries 6 and 7, which the array does not have. -/
theorem custom_pdf_parR {K : Type} [Field K] (f : K → K) (x alpha kw0 kw1 kw2 : K) :
    custom_pdf f x 0 (parR alpha kw0 kw1 kw2) = some (1 + alpha * f (kw0 * x)) ∧
    custom_pdf f x 1 (parR alpha kw0 kw1 kw2) = some (1 + kw1 * f (alpha * x)) ∧
    custom_pdf f x 2 (parR alpha kw0 kw1 kw2) = none ∧
    custom_cdf f x 0 (parR alpha kw0 kw1 kw2) = some (x + (alpha / kw0) * f (kw0 * x)) ∧
    custom_cdf f x 1 (parR alpha kw0 kw1 kw2) = some (x + (kw1 / alpha) * f (alpha * x)) ∧
    custom_cdf f x 2 (parR alpha kw0 kw1 kw2) = none :=
  ⟨rfl, rfl, rfl, rfl, rfl, rfl⟩

/-- C22 (evaluation at the failing input): with the values of the driver,
`alpha = 0.05` and `kw = 0.5`, at `x = 0` and `d = 1` the code computes
`custom_pdf = 1 + kw[1] * cos(alpha * 0) = 1.5`, where the amplitude `alpha` and
the wavenumber `kw[1]` give `1 + alpha * cos(kw[1] * 0) = 1.05`; in general it
computes `1 + kw[1] * cos(alpha * x)` for `d = 1` and reads outside the array
for `d = 2`. -/
theorem custom_pdf_wrong_stride :
    custom_pdf Real.cos 0 1 (parR (1 / 20) (1 / 2) (1 / 2) (1 / 2)) = some (3 / 2) ∧
    (1 : ℝ) + (1 / 20) * Real.cos ((1 / 2) * 0) = 21 / 20 ∧
    custom_pdf Real.cos 0 1 (parR (1 / 20) (1 / 2) (1 / 2) (1 / 2)) ≠
      some ((1 : ℝ) + (1 / 20) * Real.cos ((1 / 2) * 0)) ∧
    (∀ x alpha kw0 kw1 kw2 : ℝ,
      custom_pdf Real.cos x 1 (parR alpha kw0 kw1 kw2) = some (1 + kw1 * Real.cos (alpha * x)) ∧
      custom_cdf Real.sin x 1 (parR alpha kw0 kw1 kw2) =
        some (x + (kw1 / alpha) * Real.sin (alpha * x)) ∧
      custom_pdf Real.cos x 2 (parR alpha kw0 kw1 kw2) = none ∧
      custom_cdf Real.sin x 2 (parR alpha kw0 kw1 kw2) = none) := by
  have h1 : custom_pdf Real.cos 0 1 (parR (1 / 20) (1 / 2) (1 / 2) (1 / 2)) = some (3 / 2) := by
    rw [(custom_pdf_parR Real.cos 0 (1 / 20) (1 / 2) (1 / 2) (1 / 2)).2.1]
    norm_num
  have h2 : (1 : ℝ) + (1 / 20) * Real.cos ((1 / 2) * 0) = 21 / 20 := by
    norm_num
  refine ⟨h1, h2, ?_, ?_⟩
  · rw [h1, h2]
    norm_num
  · intro x alpha kw0 kw1 kw2
    exact ⟨rfl, rfl, rfl, rfl⟩

/-- C23 (evaluation at the failing input): for `d = 2` the indices `d*Dim + 0 =
6` and `d*Dim + 1 = 7` are not smaller than `2*Dim = 6`, the length of `parR`:
both functors read outside the array. For `d = 0` and `d = 1` the indices 0, 1
and 3, 4 are inside. -/
theorem custom_pdf_reads_outside :
    ¬ (2 * Dim + 0 < 2 * Dim) ∧ ¬ (2 * Dim + 1 < 2 * Dim) ∧
    (∀ (K : Type) (alpha kw0 kw1 kw2 : K),
      (parR alpha kw0 kw1 kw2).length = 2 * Dim ∧
      (parR alpha kw0 kw1 kw2)[2 * Dim + 0]? = none ∧
      (parR alpha kw0 kw1 kw2)[2 * Dim + 1]? = none) ∧
    (∀ x alpha kw0 kw1 kw2 : ℚ,
      custom_pdf (fun y => y) x 2 (parR alpha kw0 kw1 kw2) = none ∧
      custom_cdf (fun y => y) x 2 (parR alpha kw0 kw1 kw2) = none) ∧
    (∀ d, d < 2 → d * Dim + 0 < 2 * Dim ∧ d * Dim + 1 < 2 * Dim) := by
  refine ⟨by decide, by decide, fun K alpha kw0 kw1 kw2 => ⟨rfl, rfl, rfl⟩,
    fun x alpha kw0 kw1 kw2 => ⟨rfl, rfl⟩, ?_⟩
  intro d hd
  unfold Dim
  omega

end Landau
namespace Landau

/-- The value of `custom_cdf` when the two parameters it reads are in the
array. -/
theorem custom_cdf_eq {K : Type} [Field K] (f : K → K) (d : Nat) (params : List K) (a k : K)
    (ha : params[d * Dim + 0]? = some a) (hk : params[d * Dim + 1]? = some k) (x : K) :
    custom_cdf f x d params = some (x + (a / k) * f (k * x)) := by
  simp only [custom_cdf, ha, hk]

/-- The value of `custom_pdf` when the two parameters it reads are in the
array. -/
theorem custom_pdf_eq {K : Type} [Field K] (f : K → K) (d : Nat) (params : List K) (a k : K)
    (ha : params[d * Dim + 0]? = some a) (hk : params[d * Dim + 1]? = some k) (x : K) :
    custom_pdf f x d params = some (1 + a * f (k * x)) := by
  simp only [custom_pdf, ha, hk]

/-- The derivative of `x + (a / k) * sin (k * x)` is `1 + a * cos (k * x)`. -/
theorem hasDerivAt_cdf (a k : ℝ) (hk0 : k ≠ 0) (x : ℝ) :
    HasDerivAt (fun y : ℝ => y + (a / k) * Real.sin (k * y)) (1 + a * Real.cos (k * x)) x := by
  have h1 : HasDerivAt (fun y : ℝ => k * y) k x := by
    simpa using (hasDerivAt_id x).const_mul k
  have h2 : HasDerivAt (fun y : ℝ => Real.sin (k * y)) (Real.cos (k * x) * k) x :=
    (Real.hasDerivAt_sin (k * x)).comp x h1
  have h3 := (hasDerivAt_id x).add (h2.const_mul (a / k))
  have e : (1 : ℝ) + a / k * (Real.cos (k * x) * k) = 1 + a * Real.cos (k * x) := by
    field_simp
    ring
  rw [e] at h3
  exact h3

/-- C24: over the reals, for every dimension `d` and every parameter array
whose entries `params[d*Dim+0]` and `params[d*Dim+1]` exist, the latter
non-zero, the derivative of `custom_cdf(., d, params)` at every `x` is
`custom_pdf(x, d, params)`, and `custom_cdf(0, d, params) = 0`. -/
theorem custom_cdf_antiderivative (d : Nat) (params : List ℝ) (a k : ℝ)
    (ha : params[d * Dim + 0]? = some a) (hk : params[d * Dim + 1]? = some k) (hk0 : k ≠ 0) :
    custom_cdf Real.sin 0 d params = some 0 ∧
    (∀ x, ∃ c p, custom_cdf Real.sin x d params = some c ∧
      custom_pdf Real.cos x d params = some p ∧
      HasDerivAt (fun y => (custom_cdf Real.sin y d params).getD 0) p x) := by
  constructor
  · rw [custom_cdf_eq Real.sin d params a k ha hk]
    simp
  · intro x
    refine ⟨_, _, custom_cdf_eq Real.sin d params a k ha hk x,
      custom_pdf_eq Real.cos d params a k ha hk x, ?_⟩
    have hfun : (fun y => (custom_cdf Real.sin y d params).getD 0) =
        fun y : ℝ => y + (a / k) * Real.sin (k * y) := by
      funext y
      rw [custom_cdf_eq Real.sin d params a k ha hk]
      rfl
    rw [hfun]
    exact hasDerivAt_cdf a k hk0 x

/-- Witness for C24: the first dimension of the parameter array of the
driver. -/
theorem custom_cdf_antiderivative_witness :
    (parR (1 / 20 : ℝ) (1 / 2) (1 / 2) (1 / 2))[0 * Dim + 0]? = some (1 / 20) ∧
    (parR (1 / 20 : ℝ) (1 / 2) (1 / 2) (1 / 2))[0 * Dim + 1]? = some (1 / 2) ∧
    (1 / 2 : ℝ) ≠ 0 ∧
    custom_cdf Real.sin 0 0 (parR (1 / 20 : ℝ) (1 / 2) (1 / 2) (1 / 2)) = some 0 ∧
    (∀ x, ∃ c p, custom_cdf Real.sin x 0 (parR (1 / 20 : ℝ) (1 / 2) (1 / 2) (1 / 2)) = some c ∧
      custom_pdf Real.cos x 0 (parR (1 / 20 : ℝ) (1 / 2) (1 / 2) (1 / 2)) = some p ∧
      HasDerivAt
        (fun y => (custom_cdf Real.sin y 0 (parR (1 / 20 : ℝ) (1 / 2) (1 / 2) (1 / 2))).getD 0)
        p x) :=
  ⟨rfl, rfl, by norm_num,
    custom_cdf_antiderivative 0 (parR (1 / 20 : ℝ) (1 / 2) (1 / 2) (1 / 2)) (1 / 20) (1 / 2)
      rfl rfl (by norm_num)⟩

/-- For an amplitude of absolute value below one the density is at least
`1 - |a|`. -/
theorem pdf_lower_bound (a k x : ℝ) : 1 - |a| ≤ 1 + a * Real.cos (k * x) := by
  have h1 : |a * Real.cos (k * x)| ≤ |a| := by
    rw [abs_mul]
    calc |a| * |Real.cos (k * x)| ≤ |a| * 1 :=
          mul_le_mul_of_nonneg_left (Real.abs_cos_le_one _) (abs_nonneg a)
      _ = |a| := mul_one _
  have h2 := neg_abs_le (a * Real.cos (k * x))
  linarith

/-- C25: over the reals, when the amplitude `a = params[d*Dim+0]` satisfies
`|a| < 1` and the wavenumber `params[d*Dim+1]` is non-zero,
`custom_pdf(x, d, params) >= 1 - |a| > 0` for every `x`, `custom_cdf(., d,
params)` is strictly increasing, and each value of the CDF has exactly one
preimage. -/
theorem custom_cdf_invertible (d : Nat) (params : List ℝ) (a k : ℝ)
    (ha : params[d * Dim + 0]? = some a) (hk : params[d * Dim + 1]? = some k) (hk0 : k ≠ 0)
    (ha1 : |a| < 1) :
    0 < 1 - |a| ∧
    (∀ x, ∃ p, custom_pdf Real.cos x d params = some p ∧ 1 - |a| ≤ p) ∧
    StrictMono (fun y => (custom_cdf Real.sin y d params).getD 0) ∧
    (∀ x, ∃! y, (custom_cdf Real.sin y d params).getD 0 =
      (custom_cdf Real.sin x d params).getD 0) := by
  have hfun : (fun y => (custom_cdf Real.sin y d params).getD 0) =
      fun y : ℝ => y + (a / k) * Real.sin (k * y) := by
    funext y
    rw [custom_cdf_eq Real.sin d params a k ha hk]
    rfl
  have hpos : 0 < 1 - |a| := by linarith
  have hmono : StrictMono (fun y => (custom_cdf Real.sin y d params).getD 0) := by
    rw [hfun]
    apply strictMono_of_deriv_pos
    intro x
    rw [(hasDerivAt_cdf a k hk0 x).deriv]
    have := pdf_lower_bound a k x
    linarith
  refine ⟨hpos, ?_, hmono, ?_⟩
  · intro x
    exact ⟨_, custom_pdf_eq Real.cos d params a k ha hk x, pdf_lower_bound a k x⟩
  · intro x
    exact ⟨x, rfl, fun y hy => hmono.injective hy⟩

/-- Witness for C25: the first dimension of the parameter array of the
driver, with amplitude 0.05. -/
theorem custom_cdf_invertible_witness :
    (parR (1 / 20 : ℝ) (1 / 2) (1 / 2) (1 / 2))[0 * Dim + 0]? = some (1 / 20) ∧
    (parR (1 / 20 : ℝ) (1 / 2) (1 / 2) (1 / 2))[0 * Dim + 1]? = some (1 / 2) ∧
    (1 / 2 : ℝ) ≠ 0 ∧ |(1 / 20 : ℝ)| < 1 ∧
    StrictMono
      (fun y => (custom_cdf Real.sin y 0 (parR (1 / 20 : ℝ) (1 / 2) (1 / 2) (1 / 2))).getD 0) :=
  ⟨rfl, rfl, by norm_num, by rw [abs_of_pos] <;> norm_num,
    (custom_cdf_invertible 0 (parR (1 / 20 : ℝ) (1 / 2) (1 / 2) (1 / 2)) (1 / 20) (1 / 2)
      rfl rfl (by norm_num) (by rw [abs_of_pos] <;> norm_num)).2.2.1⟩

end Landau
namespace Landau

/-- The reduction with `std::multiplies` from the initial value -1 over three
components. -/
theorem Q_three {K : Type} [Field K] (r0 r1 r2 : K) : Q [r0, r1, r2] = -(r0 * r1 * r2) := by
  simp only [Q, List.foldl_cons, List.foldl_nil]
  ring

/-- The density `1 + a * cos (k * x)` integrates over one period `[0, 2 * pi /
k]` to the length of the period. -/
theorem integral_density (a k : ℝ) (hk0 : k ≠ 0) :
    ∫ x in (0 : ℝ)..(2 * Real.pi / k), (1 + a * Real.cos (k * x)) = 2 * Real.pi / k := by
  have hcont : Continuous (fun x : ℝ => 1 + a * Real.cos (k * x)) := by
    fun_prop
  rw [intervalIntegral.integral_eq_sub_of_hasDerivAt
    (fun x _ => hasDerivAt_cdf a k hk0 x) (hcont.intervalIntegrable _ _)]
  have e : k * (2 * Real.pi / k) = 2 * Real.pi := by
    field_simp
  simp [e]

/-- The density with amplitude `alpha` and wavenumber `k` in the two slots that
the functors read (the parameter array `[alpha, k]`, `d = 0`): over the reals,
the total charge is `Q = -(rmax[0] * rmax[1] * rmax[2])`; for `k != 0` and
`rmax = 2 * pi / k` the density `custom_pdf = 1 + alpha * cos(k * x)`
integrates over `[0, rmax]` to `custom_cdf(rmax) - custom_cdf(0) = rmax`; so
the product of these integrals for the three wavenumbers is
`rmax[0] * rmax[1] * rmax[2] = -Q`. From the array `parR` of the driver the
functors read other entries for `d = 1` and `d = 2`. -/
theorem charge_is_minus_integral (alpha kw0 kw1 kw2 : ℝ)
    (h0 : kw0 ≠ 0) (h1 : kw1 ≠ 0) (h2 : kw2 ≠ 0) :
    Q (rmax Real.pi [kw0, kw1, kw2]) =
      -((2 * Real.pi / kw0) * (2 * Real.pi / kw1) * (2 * Real.pi / kw2)) ∧
    (∀ k : ℝ, k ≠ 0 →
      (∫ x in (0 : ℝ)..(2 * Real.pi / k), (custom_pdf Real.cos x 0 [alpha, k]).getD 0) =
        2 * Real.pi / k ∧
      (custom_cdf Real.sin (2 * Real.pi / k) 0 [alpha, k]).getD 0 -
        (custom_cdf Real.sin 0 0 [alpha, k]).getD 0 = 2 * Real.pi / k) ∧
    (∫ x in (0 : ℝ)..(2 * Real.pi / kw0), (custom_pdf Real.cos x 0 [alpha, kw0]).getD 0) *
      (∫ x in (0 : ℝ)..(2 * Real.pi / kw1), (custom_pdf Real.cos x 0 [alpha, kw1]).getD 0) *
      (∫ x in (0 : ℝ)..(2 * Real.pi / kw2), (custom_pdf Real.cos x 0 [alpha, kw2]).getD 0) =
      -Q (rmax Real.pi [kw0, kw1, kw2]) := by
  have hQ : Q (rmax Real.pi [kw0, kw1, kw2]) =
      -((2 * Real.pi / kw0) * (2 * Real.pi / kw1) * (2 * Real.pi / kw2)) := by
    simp only [rmax, List.map_cons, List.map_nil]
    exact Q_three _ _ _
  have hint : ∀ k : ℝ, k ≠ 0 →
      (∫ x in (0 : ℝ)..(2 * Real.pi / k), (custom_pdf Real.cos x 0 [alpha, k]).getD 0) =
        2 * Real.pi / k := by
    intro k hk
    have hfun : (fun x : ℝ => (custom_pdf Real.cos x 0 [alpha, k]).getD 0) =
        fun x : ℝ => 1 + alpha * Real.cos (k * x) := by
      funext x
      rw [custom_pdf_eq Real.cos 0 [alpha, k] alpha k rfl rfl]
      rfl
    rw [hfun]
    exact integral_density alpha k hk
  refine ⟨hQ, ?_, ?_⟩
  · intro k hk
    refine ⟨hint k hk, ?_⟩
    rw [custom_cdf_eq Real.sin 0 [alpha, k] alpha k rfl rfl,
      custom_cdf_eq Real.sin 0 [alpha, k] alpha k rfl rfl]
    have e : k * (2 * Real.pi / k) = 2 * Real.pi := by
      field_simp
    simp [e]
  · rw [hint kw0 h0, hint kw1 h1, hint kw2 h2, hQ]
    ring

/-- An instance of `charge_is_minus_integral`: the wavenumbers 0.5 of the
driver, for which `rmax = 4 * pi` in every dimension and `Q = -(4 * pi)^3`. -/
theorem charge_is_minus_integral_witness :
    (1 / 2 : ℝ) ≠ 0 ∧
    Q (rmax Real.pi [(1 / 2 : ℝ), 1 / 2, 1 / 2]) =
      -((2 * Real.pi / (1 / 2)) * (2 * Real.pi / (1 / 2)) * (2 * Real.pi / (1 / 2))) :=
  ⟨by norm_num,
    (charge_is_minus_integral (1 / 20) (1 / 2) (1 / 2) (1 / 2)
      (by norm_num) (by norm_num) (by norm_num)).1⟩

end Landau

namespace benchmarkParticleUpdate

/-- A value in `[0, 1)` is converted to the `int` 0. -/
theorem toInt_eq_zero (x : ℚ) (h0 : 0 ≤ x) (h1 : x < 1) : toInt x = 0 := by
  unfold toInt
  rw [if_pos h0, Int.floor_eq_zero_iff]
  exact ⟨h0, h1⟩

/-- The spacing of a grid with at least two cells is converted to the `int`
0. -/
theorem toInt_spacing (nr : Int) (h : 2 ≤ nr) : toInt (spacing nr) = 0 := by
  have hpos : (0 : ℚ) < (nr : ℚ) := by exact_mod_cast (by omega : (0 : Int) < nr)
  have h2 : (1 : ℚ) < (nr : ℚ) := by exact_mod_cast (by omega : (1 : Int) < nr)
  apply toInt_eq_zero
  · unfold spacing
    positivity
  · unfold spacing
    rw [div_lt_one hpos]
    exact h2

/-- For grids with at least two cells in every dimension `hr_min` is `dx`,
whatever `dy` and `dz` are. -/
theorem hr_min_eq_dx (nr0 nr1 nr2 : Int) (h0 : 2 ≤ nr0) (h1 : 2 ≤ nr1) (h2 : 2 ≤ nr2) :
    hr_min nr0 nr1 nr2 = spacing nr0 := by
  simp [hr_min, std_min, comp, toInt_spacing nr0 h0, toInt_spacing nr1 h1, toInt_spacing nr2 h2]

/-- C27 (evaluation at the failing input): for the grid sizes 2, 4, 8 the
spacings are 1/2, 1/4 and 1/8; converted to `int` they are all 0, no comparison
holds, and `hr_min` is `dx = 1/2` while the least spacing is `dz = 1/8`; a
velocity of 1/4, which is below `hr_min`, moves a particle by two cells in z in
one step. -/
theorem hr_min_not_least :
    spacing 2 = 1 / 2 ∧ spacing 4 = 1 / 4 ∧ spacing 8 = 1 / 8 ∧
    hr_min 2 4 8 = 1 / 2 ∧
    min (spacing 2) (min (spacing 4) (spacing 8)) = 1 / 8 ∧
    hr_min 2 4 8 ≠ min (spacing 2) (min (spacing 4) (spacing 8)) ∧
    ((1 / 4 : ℚ) < hr_min 2 4 8 ∧ (1 / 4 : ℚ) * 1 = 2 * spacing 8) := by
  have h : hr_min 2 4 8 = 1 / 2 := by
    rw [hr_min_eq_dx 2 4 8 (by decide) (by decide) (by decide)]
    norm_num [spacing]
  have hmin : min (spacing 2) (min (spacing 4) (spacing 8)) = 1 / 8 := by
    norm_num [spacing]
  refine ⟨by norm_num [spacing], by norm_num [spacing], by norm_num [spacing], h, hmin, ?_, ?_, ?_⟩
  · rw [h, hmin]; norm_num
  · rw [h]; norm_num
  · norm_num [spacing]

end benchmarkParticleUpdate

namespace ViewTypes
open HaloCells

/-- The values of two outputs written one after the other. -/
theorem values_append {T : Type} (a b : List (Token T)) :
    values (a ++ b) = values a ++ values b := by
  induction a with
  | nil => rfl
  | cons t a ih => cases t <;> simp [values, ih]

/-- The values of the outputs of a loop. -/
theorem values_flatMap {T : Type} (l : List Nat) (f : Nat → List (Token T)) :
    values (l.flatMap f) = l.flatMap (fun i => values (f i)) := by
  induction l with
  | nil => rfl
  | cons i l ih => simp [values_append, ih]

/-- Removing line ends from two outputs written one after the other. -/
theorem withoutEndl_append {T : Type} (a b : List (Token T)) :
    withoutEndl (a ++ b) = withoutEndl a ++ withoutEndl b := by
  induction a with
  | nil => rfl
  | cons t a ih => cases t <;> simp [withoutEndl, ih]

/-- Removing line ends from the outputs of a loop. -/
theorem withoutEndl_flatMap {T : Type} (l : List Nat) (f : Nat → List (Token T)) :
    withoutEndl (l.flatMap f) = l.flatMap (fun i => withoutEndl (f i)) := by
  induction l with
  | nil => rfl
  | cons i l ih => simp [withoutEndl_append, ih]

/-- The line ends of two outputs written one after the other. -/
theorem countEndl_append {T : Type} (a b : List (Token T)) :
    countEndl (a ++ b) = countEndl a + countEndl b := by
  induction a with
  | nil => simp [countEndl]
  | cons t a ih =>
    cases t
    · simp [countEndl, ih]
    · simp [countEndl, ih]
    · simp [countEndl, ih]; omega

/-- The line ends of a loop whose passes all write `n` line ends. -/
theorem countEndl_flatMap {T : Type} (n : Nat) (l : List Nat) (f : Nat → List (Token T))
    (h : ∀ i ∈ l, countEndl (f i) = n) : countEndl (l.flatMap f) = l.length * n := by
  induction l with
  | nil => simp [countEndl]
  | cons i l ih =>
    rw [List.flatMap_cons, countEndl_append, h i (List.mem_cons_self _ _),
      ih (fun j hj => h j (List.mem_cons_of_mem _ hj)), List.length_cons, Nat.succ_mul,
      Nat.add_comm]

/-- The cells of a range, index 0 fastest. -/
theorem cells_cons (a b : Nat) (lo hi : List Nat) :
    cells (a :: lo) (b :: hi) =
      (cells lo hi).flatMap (fun tl => (List.range' a (b - a)).map (fun i => i :: tl)) :=
  rfl

/-- The cells of a range with one more dimension: the new last index is the
slowest. -/
theorem cells_snoc (l h : Nat) :
    ∀ (lo hi : List Nat), lo.length = hi.length →
      cells (lo ++ [l]) (hi ++ [h]) =
        (List.range' l (h - l)).flatMap (fun i => (cells lo hi).map (fun c => c ++ [i])) := by
  intro lo
  induction lo with
  | nil =>
    intro hi hlen
    cases hi with
    | nil =>
      rw [List.nil_append, List.nil_append, cells_cons]
      simp only [cells, List.flatMap_singleton, List.map_cons, List.map_nil]
      rw [List.map_eq_flatMap]
      rfl
    | cons b hi => simp at hlen
  | cons a lo ih =>
    intro hi hlen
    cases hi with
    | nil => simp at hlen
    | cons b hi =>
      simp only [List.length_cons, Nat.add_right_cancel_iff] at hlen
      rw [List.cons_append, List.cons_append, cells_cons, cells_cons, ih hi hlen,
        List.flatMap_assoc]
      apply List.flatMap_congr
      intro i _
      rw [List.flatMap_map, List.map_flatMap]
      apply List.flatMap_congr
      intro tl _
      rw [List.map_map]
      rfl

/-- The line ends of a loop around further loops. -/
theorem loopCount_cons (e : Nat) (rest : List Nat) (h : rest ≠ []) :
    loopCount (e :: rest) = 1 + e * loopCount rest := by
  cases rest with
  | nil => exact absurd rfl h
  | cons r rs => rfl

/-- The innermost instance of `printLoop` (`Current = Dim - 1`): a loop over
dimension 0 that writes a value and a space, followed by a line end. -/
theorem printLoop_inner {T : Type} (Dim : Nat) (view : View T) (args : List Nat)
    (hD : 1 ≤ Dim) :
    printLoop Dim view 1 (Dim - 1) args =
      (List.range (extent view 0)).flatMap
        (fun i => [Token.value (view.data (i :: args)), Token.space]) ++ [Token.endl] := by
  have hidx : Dim - (Dim - 1) - 1 = 0 := by omega
  have hcond : (Dim - 1 + 1 ≥ 2 ∨ Dim - 1 = 0) := by omega
  rw [printLoop, hidx, if_pos hcond]
  simp only [if_true]

/-- An outer instance of `printLoop` (`Current = Dim - (m + 2)`): a loop over
dimension `m + 1` that calls the next instance, followed by a line end. -/
theorem printLoop_outer {T : Type} (Dim : Nat) (view : View T) (m : Nat) (args : List Nat)
    (hm : m + 2 ≤ Dim) :
    printLoop Dim view (m + 2) (Dim - (m + 2)) args =
      (List.range (extent view (m + 1))).flatMap
        (fun i => printLoop Dim view (m + 1) (Dim - (m + 1)) (i :: args)) ++ [Token.endl] := by
  have hcur : ¬ (Dim - 1 = Dim - (m + 2)) := by omega
  have hidx : Dim - (Dim - (m + 2)) - 1 = m + 1 := by omega
  have hnext : Dim - (m + 2) + 1 = Dim - (m + 1) := by omega
  have hcond : (Dim - (m + 2) + 1 ≥ 2 ∨ Dim - (m + 2) = 0) := by omega
  rw [printLoop, hidx, if_pos hcond]
  simp only [hcur, if_false]
  rw [hnext]

/-- What the instance of `printLoop` that has `m + 1` loops to run (the
dimensions `0` to `m`) writes, the indices of the outer dimensions being
`args`: the values of the cells in the order of `cells` (index 0 fastest), each
followed by a space once the line ends are left out, and one line end per
loop. -/
theorem printLoop_level {T : Type} (Dim : Nat) (view : View T)
    (hrank : view.extent.length = Dim) :
    ∀ (m : Nat) (args : List Nat), m + 1 ≤ Dim →
      values (printLoop Dim view (m + 1) (Dim - (m + 1)) args) =
        (cells (List.replicate (m + 1) 0) (view.extent.take (m + 1))).map
          (fun c => view.data (c ++ args)) ∧
      withoutEndl (printLoop Dim view (m + 1) (Dim - (m + 1)) args) =
        (values (printLoop Dim view (m + 1) (Dim - (m + 1)) args)).flatMap
          (fun v => [Token.value v, Token.space]) ∧
      countEndl (printLoop Dim view (m + 1) (Dim - (m + 1)) args) =
        loopCount (view.extent.take (m + 1)).reverse := by
  intro m
  induction m with
  | zero =>
    intro args hm
    have hlt : 0 < view.extent.length := by omega
    have htake : view.extent.take (0 + 1) = [extent view 0] := by
      unfold extent
      rw [List.getD_eq_getElem _ _ hlt, List.take_succ, List.take_zero,
        List.getElem?_eq_getElem hlt]
      rfl
    rw [printLoop_inner Dim view args (by omega)]
    refine ⟨?_, ?_, ?_⟩
    · rw [values_append, values_flatMap, htake]
      simp [values, cells, List.map_eq_flatMap, List.range_eq_range', List.flatMap_assoc]
    · rw [withoutEndl_append, withoutEndl_flatMap, values_append, values_flatMap]
      simp [values, withoutEndl, List.flatMap_assoc]
    · rw [countEndl_append, countEndl_flatMap 0 _
        (fun i => [Token.value (view.data (i :: args)), Token.space]) (fun i _ => rfl), htake]
      simp [countEndl, loopCount]
  | succ m ih =>
    intro args hm
    have hlt : m + 1 < view.extent.length := by omega
    have htake : view.extent.take (m + 1 + 1) =
        view.extent.take (m + 1) ++ [extent view (m + 1)] := by
      unfold extent
      rw [List.take_succ, List.getD_eq_getElem _ _ hlt, List.getElem?_eq_getElem hlt]
      rfl
    have hrep : List.replicate (m + 1 + 1) 0 = List.replicate (m + 1) 0 ++ [0] :=
      List.replicate_succ' _ _
    have hlen : (List.replicate (m + 1) 0).length = (view.extent.take (m + 1)).length := by
      rw [List.length_replicate, List.length_take]
      omega
    rw [printLoop_outer Dim view m args (by omega)]
    refine ⟨?_, ?_, ?_⟩
    · rw [values_append, values_flatMap, htake, hrep, cells_snoc 0 _ _ _ hlen]
      simp only [values, List.append_nil, Nat.sub_zero, ← List.range_eq_range']
      rw [List.map_flatMap]
      apply List.flatMap_congr
      intro i _
      rw [(ih (i :: args) (by omega)).1, List.map_map]
      apply List.map_congr_left
      intro c _
      simp
    · rw [withoutEndl_append, withoutEndl_flatMap, values_append, values_flatMap]
      simp only [values, withoutEndl, List.append_nil]
      rw [List.flatMap_assoc]
      apply List.flatMap_congr
      intro i _
      exact (ih (i :: args) (by omega)).2.1
    · rw [countEndl_append,
        countEndl_flatMap (loopCount (view.extent.take (m + 1)).reverse) _
          (fun i => printLoop Dim view (m + 1) (Dim - (m + 1)) (i :: args))
          (fun i _ => (ih (i :: args) (by omega)).2.2),
        htake, List.reverse_append, List.reverse_singleton, List.singleton_append,
        loopCount_cons _ _ (by
          intro h
          have := congrArg List.length h
          simp only [List.length_reverse, List.length_take, List.length_nil] at this
          omega)]
      simp only [List.length_range, countEndl]
      omega

end ViewTypes
namespace ViewTypes
open HaloCells

/-- The cells of the range from 0 to the extents are the index tuples of the
view: one index below the extent per dimension. -/
theorem mem_cells_zero :
    ∀ (ext c : List Nat),
      c ∈ cells (List.replicate ext.length 0) ext ↔ List.Forall₂ (fun i e => i < e) c ext := by
  intro ext
  induction ext with
  | nil =>
    intro c
    simp [cells]
  | cons e es ih =>
    intro c
    rw [List.length_cons, List.replicate_succ, cells_cons, List.mem_flatMap,
      List.forall₂_cons_right_iff]
    constructor
    · rintro ⟨tl, htl, hc⟩
      rw [List.mem_map] at hc
      obtain ⟨i, hi, rfl⟩ := hc
      rw [List.mem_range'_1] at hi
      exact ⟨i, tl, by omega, (ih tl).mp htl, rfl⟩
    · rintro ⟨i, tl, hi, htl, rfl⟩
      refine ⟨tl, (ih tl).mpr htl, ?_⟩
      rw [List.mem_map]
      exact ⟨i, by rw [List.mem_range'_1]; omega, rfl⟩

/-- No cell of a range is listed twice. -/
theorem cells_nodup : ∀ (lo hi : List Nat), (cells lo hi).Nodup := by
  intro lo
  induction lo with
  | nil =>
    intro hi
    cases hi with
    | nil => simp [cells]
    | cons b hi => simp [cells]
  | cons a lo ih =>
    intro hi
    cases hi with
    | nil => simp [cells]
    | cons b hi =>
      rw [cells_cons, List.nodup_flatMap]
      constructor
      · intro tl _
        exact (List.nodup_range' a (b - a)).map (fun i j hij => (List.cons.inj hij).1)
      · refine (ih hi).imp ?_
        intro tl1 tl2 hne
        intro c h1 h2
        rw [List.mem_map] at h1 h2
        obtain ⟨i, _, rfl⟩ := h1
        obtain ⟨j, _, hj⟩ := h2
        exact hne (List.cons.inj hj).2.symm

/-- The range from 0 to the extents lies inside the view. -/
theorem inside_zero : ∀ ext : List Nat, inside (List.replicate ext.length 0) ext ext = true := by
  intro ext
  induction ext with
  | nil => rfl
  | cons e es ih => simp [inside, List.replicate_succ, ih]

/-- The range from 0 to the extents has as many cells as the view. -/
theorem cellCount_zero : ∀ ext : List Nat, cellCount (List.replicate ext.length 0) ext = ext.prod := by
  intro ext
  induction ext with
  | nil => rfl
  | cons e es ih => simp [cellCount, List.replicate_succ, ih]

/-- C28: for a view of dimension `Dim >= 1`, `write` (that is `printLoop<Dim>`)
writes the value of every index tuple of the view exactly once, `e_0 * ... *
e_{Dim-1}` values in all, in the order in which index 0 varies fastest and
index `Dim - 1` slowest, the value at position `(i_0, .., i_{Dim-1})` being
`view(i_0, .., i_{Dim-1})`; every value is followed by one space; and every
instance of `printLoop` writes one line end after its loop, the condition
`Current + 1 >= 2 || Current == 0` being true for every `Current`. -/
theorem write_every_element {T : Type} (Dim : Nat) (view : View T) (hDim : 1 ≤ Dim)
    (hrank : view.extent.length = Dim) :
    values (write Dim view) = (cells (List.replicate Dim 0) view.extent).map view.data ∧
    (cells (List.replicate Dim 0) view.extent).Nodup ∧
    (∀ c, c ∈ cells (List.replicate Dim 0) view.extent ↔
      List.Forall₂ (fun i e => i < e) c view.extent) ∧
    (values (write Dim view)).length = view.extent.prod ∧
    withoutEndl (write Dim view) =
      (values (write Dim view)).flatMap (fun v => [Token.value v, Token.space]) ∧
    (∀ Current : Nat, Current + 1 ≥ 2 ∨ Current = 0) ∧
    (∀ (depth Current : Nat) (args : List Nat),
      printLoop Dim view (depth + 1) Current args =
        (List.range (extent view (Dim - Current - 1))).flatMap (fun i =>
          if Dim - 1 = Current then [Token.value (view.data (i :: args)), Token.space]
          else printLoop Dim view depth (Current + 1) (i :: args)) ++ [Token.endl]) ∧
    countEndl (write Dim view) = loopCount view.extent.reverse := by
  obtain ⟨m, rfl⟩ : ∃ m, Dim = m + 1 := ⟨Dim - 1, by omega⟩
  have hlev := printLoop_level (m + 1) view hrank m [] (le_refl _)
  have htake : view.extent.take (m + 1) = view.extent := by
    rw [← hrank]
    exact List.take_length _
  have hw : write (m + 1) view = printLoop (m + 1) view (m + 1) (m + 1 - (m + 1)) [] := by
    unfold write
    rw [Nat.sub_self]
  have hcond : ∀ Current : Nat, Current + 1 ≥ 2 ∨ Current = 0 := by
    intro Current
    omega
  have hvals : values (write (m + 1) view) =
      (cells (List.replicate (m + 1) 0) view.extent).map view.data := by
    rw [hw, hlev.1, htake]
    apply List.map_congr_left
    intro c _
    rw [List.append_nil]
  refine ⟨hvals, cells_nodup _ _, ?_, ?_, ?_, hcond, ?_, ?_⟩
  · intro c
    rw [← hrank]
    exact mem_cells_zero view.extent c
  · rw [hvals, List.length_map, ← hrank, cells_length _ _ _ (inside_zero view.extent),
      cellCount_zero]
  · rw [hw]
    exact hlev.2.1
  · intro depth Current args
    rw [printLoop, if_pos (hcond Current)]
  · rw [hw, hlev.2.2, htake]

/-- Witness for C28: the view of extent 2 x 3 is written in three lines of two
values each, followed by the line end of the outer loop. -/
theorem write_every_element_witness :
    1 ≤ 2 ∧ printView.extent.length = 2 ∧
    write 2 printView =
      [Token.value 0, Token.space, Token.value 10, Token.space, Token.endl,
       Token.value 1, Token.space, Token.value 11, Token.space, Token.endl,
       Token.value 2, Token.space, Token.value 12, Token.space, Token.endl, Token.endl] ∧
    values (write 2 printView) = (cells (List.replicate 2 0) printView.extent).map printView.data ∧
    (values (write 2 printView)).length = printView.extent.prod :=
  ⟨by decide, rfl, by decide,
    (write_every_element 2 printView (by decide) rfl).1,
    (write_every_element 2 printView (by decide) rfl).2.2.2.1⟩

end ViewTypes

namespace ViewTypes
open HaloCells

/-- Indices that survive the conversions are handed on unchanged. -/
theorem wrapperArgs_eq (index_type : Int → Int) (x : List Int)
    (hrep : ∀ v ∈ x, index_type (size_t v) = v) : wrapperArgs index_type x = x := by
  unfold wrapperArgs
  induction x with
  | nil => rfl
  | cons v x ih =>
    rw [List.map_cons, hrep v (List.mem_cons_self _ _),
      ih (fun w hw => hrep w (List.mem_cons_of_mem _ hw))]

/-- Every index tuple of a multi-dimensional range has one index per
dimension. -/
theorem length_indexTuples :
    ∀ (lower upper x : List Int), x ∈ indexTuples lower upper → x.length = lower.length := by
  intro lower
  induction lower with
  | nil =>
    intro upper x hx
    cases upper with
    | nil => simp [indexTuples] at hx; rw [hx]
    | cons u us => simp [indexTuples] at hx
  | cons l ls ih =>
    intro upper x hx
    cases upper with
    | nil => simp [indexTuples] at hx
    | cons u us =>
      simp only [indexTuples, List.mem_flatMap, List.mem_map] at hx
      obtain ⟨tl, htl, i, _, rfl⟩ := hx
      simp only [List.length_cons, ih us tl htl]

/-- Every index tuple of a policy has as many indices as the rank of the
policy. -/
theorem length_indices (policy : policy_type) :
    ∀ x ∈ policy.indices, x.length = ExtractRank policy := by
  intro x hx
  cases policy with
  | RangePolicy lower upper =>
    simp only [policy_type.indices, List.mem_map] at hx
    obtain ⟨i, _, rfl⟩ := hx
    rfl
  | MDRangePolicy lower upper => exact length_indexTuples lower upper x hx

/-- The rank of the policy that `getRangePolicy<Dim>` returns is `Dim`. -/
theorem ExtractRank_getRangePolicy {T : Type} (Dim : Nat) (view : View T) (shift : Int)
    (policy : policy_type)
    (h : getRangePolicy Dim view shift = Except.ok policy) : ExtractRank policy = Dim := by
  by_cases h1 : Dim = 1
  · simp only [getRangePolicy, getRangePolicyBranches, h1, if_true, Except.ok.injEq] at h
    rw [← h, h1]
    rfl
  · simp only [getRangePolicy, getRangePolicyBranches, h1, if_false, Except.ok.injEq] at h
    rw [← h]
    simp [ExtractRank]

/-- The rank of the policy that `createRangePolicy<Dim>` returns is `Dim`. -/
theorem ExtractRank_createRangePolicy (Dim : Nat) (lower upper : Fin Dim → Int)
    (policy : policy_type)
    (h : createRangePolicy Dim lower upper = Except.ok policy) : ExtractRank policy = Dim := by
  by_cases h1 : Dim = 1
  · simp only [createRangePolicy, createRangePolicyBranches, h1, dif_pos, Except.ok.injEq] at h
    rw [← h]
    exact h1.symm
  · simp only [createRangePolicy, createRangePolicyBranches, h1, dif_neg, not_false_eq_true,
      Except.ok.injEq] at h
    rw [← h]
    simp [ExtractRank]

/-- A reduction whose calls all hand on the indices unchanged. -/
theorem foldlM_functorizeREDUCE {Acc : Type} (index_type : Int → Int) (n : Nat)
    (f : List Int → Acc → Acc) :
    ∀ (xs : List (List Int)) (init : Acc),
      (∀ x ∈ xs, x.length = n ∧ ∀ v ∈ x, index_type (size_t v) = v) →
      xs.foldlM (fun res x => functorizeREDUCE index_type n f x res) init =
        some (xs.foldl (fun res x => f x res) init) := by
  intro xs
  induction xs with
  | nil => intro init _; rfl
  | cons x xs ih =>
    intro init h
    obtain ⟨hlen, hrep⟩ := h x (List.mem_cons_self _ _)
    rw [List.foldlM_cons, List.foldl_cons]
    simp only [functorizeREDUCE, hlen, if_true, wrapperArgs_eq index_type x hrep,
      Option.some_bind, Option.bind_eq_bind]
    exact ih _ (fun y hy => h y (List.mem_cons_of_mem _ hy))

/-- C29: the wrapper built by `functorize` for a policy of rank `n` accepts
exactly `n` indices `x_0 .. x_{n-1}` and calls `f` with an index vector `args`
of length `n` with `args[d] = x_d` (for REDUCE together with the accumulator
it was given); `ExtractRank` gives 1 for a `RangePolicy` and the rank of an
`MDRangePolicy`, which is `Dim` for the policy of `getRangePolicy<Dim>`; so
`parallel_for` and `parallel_reduce` hand the functor the loop indices
unchanged and in order. The indices are values of `index_type`, which the
conversions to `size_t` and back leave unchanged. -/
theorem functorize_hands_indices {R Acc : Type} (index_type : Int → Int)
    (policy : policy_type) (f : List Int → R) (g : List Int → Acc → Acc)
    (hrep : ∀ x ∈ policy.indices, ∀ v ∈ x, index_type (size_t v) = v) :
    (∀ lower upper, ExtractRank (policy_type.RangePolicy lower upper) = 1) ∧
    (∀ lower upper, ExtractRank (policy_type.MDRangePolicy lower upper) = lower.length) ∧
    (∀ (T : Type) (Dim : Nat) (view : View T) (shift : Int) (p : policy_type),
      getRangePolicy Dim view shift = Except.ok p → ExtractRank p = Dim) ∧
    (∀ (Dim : Nat) (lower upper : Fin Dim → Int) (p : policy_type),
      createRangePolicy Dim lower upper = Except.ok p → ExtractRank p = Dim) ∧
    (∀ x ∈ policy.indices, ∀ res : Acc,
      x.length = ExtractRank policy ∧
      (wrapperArgs index_type x).length = ExtractRank policy ∧
      (∀ d, d < ExtractRank policy → (wrapperArgs index_type x)[d]? = x[d]?) ∧
      functorizeFOR index_type (ExtractRank policy) f x = some (f x) ∧
      functorizeREDUCE index_type (ExtractRank policy) g x res = some (g x res)) ∧
    (∀ y : List Int, y.length ≠ ExtractRank policy →
      functorizeFOR index_type (ExtractRank policy) f y = none ∧
      ∀ res : Acc, functorizeREDUCE index_type (ExtractRank policy) g y res = none) ∧
    parallel_for index_type policy f = policy.indices.map (fun x => some (f x)) ∧
    (∀ init : Acc, parallel_reduce index_type policy g init =
      some (policy.indices.foldl (fun res x => g x res) init)) := by
  refine ⟨fun _ _ => rfl, fun _ _ => rfl,
    fun T Dim view shift p h => ExtractRank_getRangePolicy Dim view shift p h,
    fun Dim lower upper p h => ExtractRank_createRangePolicy Dim lower upper p h, ?_, ?_, ?_, ?_⟩
  · intro x hx res
    have hlen := length_indices policy x hx
    have hargs := wrapperArgs_eq index_type x (hrep x hx)
    refine ⟨hlen, by rw [hargs, hlen], fun d _ => by rw [hargs], ?_, ?_⟩
    · simp only [functorizeFOR, hlen, if_true, hargs]
    · simp only [functorizeREDUCE, hlen, if_true, hargs]
  · intro y hy
    refine ⟨by simp only [functorizeFOR, hy, if_false], fun res => ?_⟩
    simp only [functorizeREDUCE, hy, if_false]
  · unfold parallel_for
    apply List.map_congr_left
    intro x hx
    simp only [functorizeFOR, length_indices policy x hx, if_true,
      wrapperArgs_eq index_type x (hrep x hx)]
  · intro init
    unfold parallel_reduce
    exact foldlM_functorizeREDUCE index_type (ExtractRank policy) g policy.indices init
      (fun x hx => ⟨length_indices policy x hx, hrep x hx⟩)

/-- Witness for C29: a two-dimensional loop over `0 <= i < 2`, `1 <= j < 3`
with the identity as conversion; the functor receives `(0, 1)`, `(1, 1)`,
`(0, 2)`, `(1, 2)`. -/
theorem functorize_hands_indices_witness :
    (∀ x ∈ (policy_type.MDRangePolicy [0, 1] [2, 3]).indices, ∀ v ∈ x, id (size_t v) = v) ∧
    parallel_for id (policy_type.MDRangePolicy [0, 1] [2, 3]) (fun args => args) =
      [some [0, 1], some [1, 1], some [0, 2], some [1, 2]] ∧
    parallel_for id (policy_type.MDRangePolicy [0, 1] [2, 3]) (fun args => args) =
      (policy_type.MDRangePolicy [0, 1] [2, 3]).indices.map (fun x => some x) :=
  ⟨by decide, by decide,
    (@functorize_hands_indices (List Int) Int id (policy_type.MDRangePolicy [0, 1] [2, 3])
      (fun args => args) (fun _ acc => acc) (by decide)).2.2.2.2.2.2.1⟩

end ViewTypes

namespace Landau

/-- The density `1 + a * cos (k * x)` integrates over `[0, b]` to
`b + (a / k) * sin (k * b)`. -/
theorem integral_density_upto (a k b : ℝ) (hk0 : k ≠ 0) :
    ∫ x in (0 : ℝ)..b, (1 + a * Real.cos (k * x)) = b + (a / k) * Real.sin (k * b) := by
  have hcont : Continuous (fun x : ℝ => 1 + a * Real.cos (k * x)) := by
    fun_prop
  rw [intervalIntegral.integral_eq_sub_of_hasDerivAt
    (fun x _ => hasDerivAt_cdf a k hk0 x) (hcont.intervalIntegrable _ _)]
  simp

/-- C26 (evaluation at the failing input): with the values of the driver,
`alpha = 0.05` and `kw = 0.5`, the upper corner is `rmax = 4 * pi` in every
dimension and `Q = -(4 * pi)^3`. The density that the code evaluates on the
driver's `parR` integrates over `[0, rmax[0]]` to `rmax[0]` for `d = 0`, but for
`d = 1` it is `1 + kw[1] * cos(alpha * x)` and integrates over `[0, rmax[1]]` to
`custom_cdf(rmax[1]) - custom_cdf(0) = 4 * pi + 10 * sin(pi / 5)`, which is not
`rmax[1]`; for `d = 2` both functors read outside the array. So the integral of
the density of the code is not `-Q`. -/
theorem charge_not_minus_integral :
    rmax Real.pi [(1 / 2 : ℝ), 1 / 2, 1 / 2] = [4 * Real.pi, 4 * Real.pi, 4 * Real.pi] ∧
    Q (rmax Real.pi [(1 / 2 : ℝ), 1 / 2, 1 / 2]) =
      -((4 * Real.pi) * (4 * Real.pi) * (4 * Real.pi)) ∧
    (∫ x in (0 : ℝ)..(4 * Real.pi),
      (custom_pdf Real.cos x 0 (parR (1 / 20) (1 / 2) (1 / 2) (1 / 2))).getD 0) = 4 * Real.pi ∧
    (∫ x in (0 : ℝ)..(4 * Real.pi),
      (custom_pdf Real.cos x 1 (parR (1 / 20) (1 / 2) (1 / 2) (1 / 2))).getD 0) =
      4 * Real.pi + 10 * Real.sin (Real.pi / 5) ∧
    (custom_cdf Real.sin (4 * Real.pi) 1 (parR (1 / 20) (1 / 2) (1 / 2) (1 / 2))).getD 0 -
      (custom_cdf Real.sin 0 1 (parR (1 / 20) (1 / 2) (1 / 2) (1 / 2))).getD 0 =
      4 * Real.pi + 10 * Real.sin (Real.pi / 5) ∧
    4 * Real.pi + 10 * Real.sin (Real.pi / 5) ≠ 4 * Real.pi ∧
    (∫ x in (0 : ℝ)..(4 * Real.pi),
      (custom_pdf Real.cos x 1 (parR (1 / 20) (1 / 2) (1 / 2) (1 / 2))).getD 0) ≠ 4 * Real.pi ∧
    (∀ x : ℝ, custom_pdf Real.cos x 2 (parR (1 / 20) (1 / 2) (1 / 2) (1 / 2)) = none ∧
      custom_cdf Real.sin x 2 (parR (1 / 20) (1 / 2) (1 / 2) (1 / 2)) = none) := by
  have hr : (2 : ℝ) * Real.pi / (1 / 2) = 4 * Real.pi := by
    field_simp
    ring
  have hrmax : rmax Real.pi [(1 / 2 : ℝ), 1 / 2, 1 / 2] =
      [4 * Real.pi, 4 * Real.pi, 4 * Real.pi] := by
    simp only [rmax, List.map_cons, List.map_nil, hr]
  have h0 : (∫ x in (0 : ℝ)..(4 * Real.pi),
      (custom_pdf Real.cos x 0 (parR (1 / 20) (1 / 2) (1 / 2) (1 / 2))).getD 0) = 4 * Real.pi := by
    have hfun : (fun x : ℝ =>
        (custom_pdf Real.cos x 0 (parR (1 / 20) (1 / 2) (1 / 2) (1 / 2))).getD 0) =
        fun x : ℝ => 1 + (1 / 20) * Real.cos ((1 / 2) * x) := by
      funext x
      rw [(custom_pdf_parR Real.cos x (1 / 20) (1 / 2) (1 / 2) (1 / 2)).1]
      rfl
    rw [hfun, integral_density_upto (1 / 20) (1 / 2) (4 * Real.pi) (by norm_num)]
    have e : (1 / 2 : ℝ) * (4 * Real.pi) = 2 * Real.pi := by ring
    rw [e, Real.sin_two_pi]
    ring
  have e1 : (1 / 20 : ℝ) * (4 * Real.pi) = Real.pi / 5 := by ring
  have h1 : (∫ x in (0 : ℝ)..(4 * Real.pi),
      (custom_pdf Real.cos x 1 (parR (1 / 20) (1 / 2) (1 / 2) (1 / 2))).getD 0) =
      4 * Real.pi + 10 * Real.sin (Real.pi / 5) := by
    have hfun : (fun x : ℝ =>
        (custom_pdf Real.cos x 1 (parR (1 / 20) (1 / 2) (1 / 2) (1 / 2))).getD 0) =
        fun x : ℝ => 1 + (1 / 2) * Real.cos ((1 / 20) * x) := by
      funext x
      rw [(custom_pdf_parR Real.cos x (1 / 20) (1 / 2) (1 / 2) (1 / 2)).2.1]
      rfl
    rw [hfun, integral_density_upto (1 / 2) (1 / 20) (4 * Real.pi) (by norm_num), e1]
    norm_num
  have hsin : 0 < Real.sin (Real.pi / 5) := by
    apply Real.sin_pos_of_pos_of_lt_pi
    · have := Real.pi_pos
      linarith
    · have := Real.pi_pos
      linarith
  have hne : 4 * Real.pi + 10 * Real.sin (Real.pi / 5) ≠ 4 * Real.pi := by
    intro h
    linarith
  refine ⟨hrmax, ?_, h0, h1, ?_, hne, ?_, fun x => ⟨rfl, rfl⟩⟩
  · rw [hrmax]
    exact Q_three _ _ _
  · rw [(custom_pdf_parR Real.sin (4 * Real.pi) (1 / 20) (1 / 2) (1 / 2) (1 / 2)).2.2.2.2.1,
      (custom_pdf_parR Real.sin 0 (1 / 20) (1 / 2) (1 / 2) (1 / 2)).2.2.2.2.1]
    simp only [Option.getD_some, e1]
    norm_num
  · rw [h1]
    exact hne

end Landau
